import Mathlib

/-!
Verification development for the latenpy lazy-evaluation library.

The embedding follows src/latenpy/latent.py: a `Latent` node holds a
callable, positional and keyword arguments (each either a plain value or a
reference to another node), a single-slot cache (`latent_data`), the
`needs_recomputation` and `computing` flags, a set of dependents and the
`disable_cache` option.  The heap is an association list from node ids to
nodes; Python object identity becomes the node id.  The helpers imported by
latent.py from the repository's missing `graph` and `types` modules
(`validate_no_cycles`, `correct_computed_status`, `get_updated_nodes`,
`LatentData`) are modelled from the spec, and are marked as such.

Python exceptions are modelled by `PyErr` (a category, a message, and an
optional cause), and a `compute` call returns an `Out` value: a result, an
error, or fuel exhaustion (the recursion of the interpreter is bounded by an
explicit fuel; fuel exhaustion is an artifact of the embedding, propagated
transparently, and never identified with a program error).  Each `compute`
result also records the list of callable invocations it performed (`log`)
and whether the call returned straight from the cache (`viaCache`).
-/

abbrev NodeId := Nat

inductive Val where
  | int : Int → Val
  | obj : NodeId → Val
deriving DecidableEq

inductive Arg where
  | val : Val → Arg
  | node : NodeId → Arg
deriving DecidableEq

inductive PyErr where
  | base : String → String → PyErr
  | chained : String → String → PyErr → PyErr
deriving DecidableEq

def PyErr.etype : PyErr → String
  | .base t _ => t
  | .chained t _ _ => t

def PyErr.msg : PyErr → String
  | .base _ m => m
  | .chained _ m _ => m

def PyErr.cause : PyErr → Option PyErr
  | .base _ _ => none
  | .chained _ _ c => some c

inductive Out (α : Type) where
  | ok : α → Out α
  | err : PyErr → Out α
  | timeout : Out α
deriving DecidableEq

/-- A `Latent` node, as in `Latent.__init__`.  `latent_data` models the
`LatentData` single-slot cache. Modelled from the spec: the repository's
`types` module (class `LatentData`) is not under src; per the spec the cache
is "an optional single-slot cache holding the last successfully computed
value; empty until first successful compute, cleared on invalidation", so it
is an `Option Val` with `set`, `clear` and truthiness as `isSome`. -/
structure Latent where
  func_name : String
  impl : List Val → List (String × Val) → Except PyErr Val
  args : List Arg
  kwargs : List (String × Arg)
  latent_data : Option Val
  needs_recomputation : Bool
  computing : Bool
  dependents : List NodeId
  disable_cache : Bool

abbrev Heap := List (NodeId × Latent)

def Heap.lookup (h : Heap) (i : NodeId) : Option Latent :=
  (h.find? (fun p => p.1 == i)).map (fun p => p.2)

def Heap.modifyAt (h : Heap) (i : NodeId) (f : Latent → Latent) : Heap :=
  h.map (fun p => if p.1 == i then (p.1, f p.2) else p)

/-- Set the transient computing flag (`self._computing = b`). -/
def setComp (b : Bool) (m : Latent) : Latent := { m with computing := b }

/-- Store a result in the cache slot (`self.latent_data.set(result)`). -/
def setCacheV (v : Val) (m : Latent) : Latent := { m with latent_data := some v }

/-- Mark stale and clear the cache (`_needs_recomputation = True` followed by
`latent_data.clear()`), as propagation does to a dependent. -/
def stMark (m : Latent) : Latent := { m with needs_recomputation := true, latent_data := none }

def cacheOf (h : Heap) (i : NodeId) : Option Val :=
  match h.lookup i with
  | some nd => nd.latent_data
  | none => none

def flagOf (h : Heap) (i : NodeId) : Bool :=
  match h.lookup i with
  | some nd => nd.needs_recomputation
  | none => false

def computingOf (h : Heap) (i : NodeId) : Bool :=
  match h.lookup i with
  | some nd => nd.computing
  | none => false

/-- The structural skeleton of the heap: per node, its argument lists.
`Latent._build_graph` reads exactly this data. -/
abbrev Skel := List (NodeId × (List Arg × List (String × Arg)))

def skeleton (h : Heap) : Skel :=
  h.map (fun p => (p.1, (p.2.args, p.2.kwargs)))

def skLookup (sk : Skel) (i : NodeId) : Option (List Arg × List (String × Arg)) :=
  (sk.find? (fun p => p.1 == i)).map (fun p => p.2)

def argNode : Arg → Option NodeId
  | .node j => some j
  | .val _ => none

/-- The latent arguments of a node in traversal order: positional arguments
first, then keyword arguments, as `Latent._build_graph` visits them. -/
def latentIds (e : List Arg × List (String × Arg)) : List NodeId :=
  e.1.filterMap argNode ++ e.2.filterMap (fun p => argNode p.2)

structure DiGraph where
  nodes : List NodeId
  edges : List (NodeId × NodeId)
deriving DecidableEq

mutual

/-- `Latent._build_graph`: depth-first traversal with a visited set; a node
already visited is skipped, otherwise it is added and its latent arguments
are traversed, adding the edge dependency → dependent after each. -/
def buildNode : Nat → Skel → NodeId → DiGraph → List NodeId → DiGraph × List NodeId
  | 0, _, _, G, vis => (G, vis)
  | fuel+1, sk, i, G, vis =>
    if i ∈ vis then (G, vis)
    else
      match skLookup sk i with
      | none => (G, vis)
      | some e =>
        buildList fuel sk i (latentIds e) { G with nodes := G.nodes ++ [i] } (vis ++ [i])

def buildList : Nat → Skel → NodeId → List NodeId → DiGraph → List NodeId → DiGraph × List NodeId
  | 0, _, _, _, G, vis => (G, vis)
  | _+1, _, _, [], G, vis => (G, vis)
  | fuel+1, sk, i, j :: rest, G, vis =>
    let r := buildNode fuel sk j G vis
    buildList fuel sk i rest { r.1 with edges := r.1.edges ++ [(j, i)] } r.2

end

/-- Fuel amply covering the work of a depth-first graph build over a finite
skeleton (an artifact of the embedding; the Python traversal terminates via
its visited set). -/
def gFuel (sk : Skel) : Nat :=
  sk.foldl (fun a p => a + 2 + p.2.1.length + p.2.2.length) 1

/-- `Latent.get_dependency_graph`: build the dependency graph rooted at a
node, with a fresh visited set. -/
def get_dependency_graph (h : Heap) (n : NodeId) : DiGraph :=
  (buildNode (gFuel (skeleton h)) (skeleton h) n ⟨[], []⟩ []).1

/-- One expansion step of forward reachability along the edge list: add every
edge target whose source is already in the set. -/
def fwdStep (es : List (NodeId × NodeId)) (s : List NodeId) : List NodeId :=
  s ++ es.filterMap (fun p => if p.1 ∈ s ∧ ¬ p.2 ∈ s then some p.2 else none)

def iterFwd : Nat → List (NodeId × NodeId) → List NodeId → List NodeId
  | 0, _, s => s
  | k+1, es, s => iterFwd k es (fwdStep es s)

/-- Forward reachability closure along the graph's edges, by bounded
iteration of `fwdStep` (enough rounds to reach the fixed point). -/
def reachFwd (es : List (NodeId × NodeId)) (s : List NodeId) : List NodeId :=
  iterFwd (es.length + 1) es s

def initSuccs (es : List (NodeId × NodeId)) (i : NodeId) : List NodeId :=
  es.filterMap (fun p => if p.1 == i then some p.2 else none)

/-- Modelled from the spec: `validate_no_cycles` from the repository's
missing `graph` module, §4.3 — "fails with a CyclicDependencyError if the
graph is not acyclic".  A cycle exists when some node is forward-reachable
from its own successors. -/
def has_cycle (G : DiGraph) : Bool :=
  G.nodes.any (fun i => i ∈ reachFwd G.edges (initSuccs G.edges i))

/-- Modelled from the spec: `correct_computed_status` from the repository's
missing `graph` module, §4.4 — "for every node marked needs_recomputation,
propagate that marking forward along edges to all reachable dependents (a
dependent of a stale node is itself stale, transitively), clearing their
caches as it goes". -/
def correct_computed_status (h : Heap) (G : DiGraph) : Heap :=
  let seeds := G.nodes.filter (fun i => flagOf h i)
  let reach := reachFwd G.edges seeds
  reach.foldl
    (fun hh i => if i ∈ seeds then hh else Heap.modifyAt hh i stMark)
    h

/-- Modelled from the spec: `get_updated_nodes` from the repository's missing
`graph` module, §4.4 — "returns every node in the graph still marked
needs_recomputation after step 1". -/
def get_updated_nodes (h : Heap) (G : DiGraph) : List NodeId :=
  G.nodes.filter (fun i => flagOf h i)

/-- The whole-program state: the heap of nodes together with the one shared
set that Python created for the mutable default argument
`visited: Set = set()` of `Latent._update_dependents`. -/
structure PState where
  heap : Heap
  default_visited : List NodeId

def markClear (h : Heap) (i : NodeId) : Heap :=
  Heap.modifyAt h i stMark

/-- `Latent._update_dependents`: for each dependent not yet visited, add it
to the visited set, mark it stale, clear its cache and recurse into its own
dependents, threading the (mutated in place) visited set. -/
def update_dependents : Nat → Heap → List NodeId → List NodeId → Heap × List NodeId
  | 0, h, _, vis => (h, vis)
  | _+1, h, [], vis => (h, vis)
  | fuel+1, h, d :: rest, vis =>
    if d ∈ vis then update_dependents fuel h rest vis
    else
      let h1 := markClear h d
      let vis1 := vis ++ [d]
      let r :=
        match Heap.lookup h1 d with
        | some nd => update_dependents fuel h1 nd.dependents vis1
        | none => (h1, vis1)
      update_dependents fuel r.1 rest r.2

/-- `Latent.update_args`: replace the positional arguments, set
`needs_recomputation`, propagate to dependents (passing the shared default
visited set, which Python mutates in place), then clear the cache. -/
def update_args (fuel : Nat) (σ : PState) (n : NodeId) (as : List Arg) : PState :=
  match Heap.lookup σ.heap n with
  | none => σ
  | some nd =>
    let h1 := Heap.modifyAt σ.heap n (fun m => { m with args := as, needs_recomputation := true })
    let r := update_dependents fuel h1 nd.dependents σ.default_visited
    let h2 := Heap.modifyAt r.1 n (fun m => { m with latent_data := none })
    { heap := h2, default_visited := r.2 }

/-- `Latent.update_func`: replace the callable, then the same invalidation
sequence as `update_args`. -/
def update_func (fuel : Nat) (σ : PState) (n : NodeId) (nm : String)
    (f : List Val → List (String × Val) → Except PyErr Val) : PState :=
  match Heap.lookup σ.heap n with
  | none => σ
  | some nd =>
    let h1 := Heap.modifyAt σ.heap n
      (fun m => { m with func_name := nm, impl := f, needs_recomputation := true })
    let r := update_dependents fuel h1 nd.dependents σ.default_visited
    let h2 := Heap.modifyAt r.1 n (fun m => { m with latent_data := none })
    { heap := h2, default_visited := r.2 }

/-- Merge semantics of `dict.update` for keyword arguments: existing keys are
replaced in place, new keys are appended. -/
def mergeKw (old new : List (String × Arg)) : List (String × Arg) :=
  old.map (fun p =>
    match new.find? (fun q => q.1 == p.1) with
    | some q => q
    | none => p)
  ++ new.filter (fun q => ¬ old.any (fun p => p.1 == q.1))

/-- `Latent.update_kwargs`: replace or merge the keyword arguments, then the
same invalidation sequence as `update_args`. -/
def update_kwargs (fuel : Nat) (σ : PState) (n : NodeId) (full_reset : Bool)
    (kw : List (String × Arg)) : PState :=
  match Heap.lookup σ.heap n with
  | none => σ
  | some nd =>
    let h1 := Heap.modifyAt σ.heap n
      (fun m => { m with kwargs := if full_reset then kw else mergeKw m.kwargs kw,
                         needs_recomputation := true })
    let r := update_dependents fuel h1 nd.dependents σ.default_visited
    let h2 := Heap.modifyAt r.1 n (fun m => { m with latent_data := none })
    { heap := h2, default_visited := r.2 }

structure CResult where
  res : Out Val
  heap : Heap
  log : List NodeId
  viaCache : Bool

/-- The re-raise of `Latent.compute`'s except clause:
`raise type(e)(f"Error in delayed computation of {name}: {str(e)}") from e`. -/
def wrapErr (name : String) (e : PyErr) : PyErr :=
  PyErr.chained e.etype ("Error in delayed computation of " ++ name ++ ": " ++ e.msg) e

def recursionErr (name : String) : PyErr :=
  PyErr.base "RecursionError" ("Circular dependency detected in delayed computation of " ++ name)

/-- Modelled from the spec: the error raised by the missing `graph` module's
`validate_no_cycles`, §7 — a CyclicDependencyError. -/
def cycleErr : PyErr :=
  PyErr.base "CyclicDependencyError" "Cycle detected in the dependency graph"

def missingErr : PyErr :=
  PyErr.base "AttributeError" "node not found"

def resetComputing (h : Heap) (n : NodeId) : Heap :=
  Heap.modifyAt h n (setComp false)

/-- In `compute_nested`, an object returned as-is when the depth limit is
exceeded: a plain value stays itself, a Latent reference is passed through
unevaluated. -/
def argAsIs : Arg → Val
  | .val v => v
  | .node i => .obj i

def depthExceeded (depth : Int) (md : Option Int) : Bool :=
  match md with
  | some d => decide (depth > d)
  | none => false

mutual

/-- `Latent.compute`.  Steps, as in the source: the `is_computing` reentrancy
guard; graph build; cycle validation; staleness correction; the stale set;
the cache-eligibility test `not force_recompute and not
recompute_dependencies and not updated_nodes and self.latent_data` with an
immediate cached return; otherwise the recompute path (`missPath`). -/
def compute : Nat → Heap → NodeId → Bool → Bool → Bool → Option Int → CResult
  | 0, h, _, _, _, _, _ => ⟨.timeout, h, [], false⟩
  | fuel+1, h, n, force, rd, dc, md =>
    match Heap.lookup h n with
    | none => ⟨.err missingErr, h, [], false⟩
    | some nd =>
      if nd.computing then ⟨.err (recursionErr nd.func_name), h, [], false⟩
      else
        let G := get_dependency_graph h n
        if has_cycle G then ⟨.err cycleErr, h, [], false⟩
        else
          let h1 := correct_computed_status h G
          let stale := get_updated_nodes h1 G
          let cand : Option Val :=
            if force = false ∧ rd = false ∧ stale = [] then cacheOf h1 n else none
          match cand with
          | some v => ⟨.ok v, h1, [], true⟩
          | none => missPath fuel h1 n nd rd dc md

/-- The try/except/finally block of `Latent.compute`: set `computing`,
resolve positional then keyword arguments (each dependency computed with
`force_recompute := recompute_dependencies` and the same `dont_cache` and
`maximum_depth`), invoke the callable, cache on success unless suppressed,
wrap any exception, and unconditionally reset `computing`. -/
def missPath : Nat → Heap → NodeId → Latent → Bool → Bool → Option Int → CResult
  | 0, h, _, _, _, _, _ => ⟨.timeout, h, [], false⟩
  | fuel+1, h, n, nd, rd, dc, md =>
    let h2 := Heap.modifyAt h n (setComp true)
    let ra := resolveArgs fuel h2 nd.args rd dc md
    match ra.1 with
    | .err e => ⟨.err (wrapErr nd.func_name e), resetComputing ra.2.1 n, ra.2.2, false⟩
    | .timeout => ⟨.timeout, resetComputing ra.2.1 n, ra.2.2, false⟩
    | .ok vs =>
      let rk := resolveKwargs fuel ra.2.1 nd.kwargs rd dc md
      match rk.1 with
      | .err e => ⟨.err (wrapErr nd.func_name e), resetComputing rk.2.1 n, ra.2.2 ++ rk.2.2, false⟩
      | .timeout => ⟨.timeout, resetComputing rk.2.1 n, ra.2.2 ++ rk.2.2, false⟩
      | .ok kvs =>
        match nd.impl vs kvs with
        | .error e =>
          ⟨.err (wrapErr nd.func_name e), resetComputing rk.2.1 n, ra.2.2 ++ rk.2.2 ++ [n], false⟩
        | .ok result =>
          let h5 :=
            if nd.disable_cache = false ∧ dc = false then
              Heap.modifyAt rk.2.1 n (setCacheV result)
            else rk.2.1
          ⟨.ok result, resetComputing h5 n, ra.2.2 ++ rk.2.2 ++ [n], false⟩

/-- The list comprehension `[compute_nested(arg, **kwargs) for arg in
self.args]`, threading the heap and stopping at the first exception. -/
def resolveArgs : Nat → Heap → List Arg → Bool → Bool → Option Int →
    Out (List Val) × Heap × List NodeId
  | 0, h, _, _, _, _ => (.timeout, h, [])
  | _+1, h, [], _, _, _ => (.ok [], h, [])
  | fuel+1, h, a :: rest, force, dc, md =>
    let r := compute_nested fuel h a force dc 0 md
    match r.res with
    | .err e => (.err e, r.heap, r.log)
    | .timeout => (.timeout, r.heap, r.log)
    | .ok v =>
      let rr := resolveArgs fuel r.heap rest force dc md
      match rr.1 with
      | .ok vs => (.ok (v :: vs), rr.2.1, r.log ++ rr.2.2)
      | .err e => (.err e, rr.2.1, r.log ++ rr.2.2)
      | .timeout => (.timeout, rr.2.1, r.log ++ rr.2.2)

/-- The dict comprehension resolving `self.kwargs`, in order. -/
def resolveKwargs : Nat → Heap → List (String × Arg) → Bool → Bool → Option Int →
    Out (List (String × Val)) × Heap × List NodeId
  | 0, h, _, _, _, _ => (.timeout, h, [])
  | _+1, h, [], _, _, _ => (.ok [], h, [])
  | fuel+1, h, p :: rest, force, dc, md =>
    let r := compute_nested fuel h p.2 force dc 0 md
    match r.res with
    | .err e => (.err e, r.heap, r.log)
    | .timeout => (.timeout, r.heap, r.log)
    | .ok v =>
      let rr := resolveKwargs fuel r.heap rest force dc md
      match rr.1 with
      | .ok vs => (.ok ((p.1, v) :: vs), rr.2.1, r.log ++ rr.2.2)
      | .err e => (.err e, rr.2.1, r.log ++ rr.2.2)
      | .timeout => (.timeout, rr.2.1, r.log ++ rr.2.2)

/-- `compute_nested` restricted to the argument shapes a node holds: the
depth-limit check returning the object as-is, the Latent branch (which calls
`compute` with `force_recompute` and `dont_cache` passed through,
`recompute_dependencies` left at its default `False`, and the depth limit
decremented), and the base case returning a plain value unchanged. -/
def compute_nested : Nat → Heap → Arg → Bool → Bool → Int → Option Int → CResult
  | 0, h, _, _, _, _, _ => ⟨.timeout, h, [], false⟩
  | fuel+1, h, a, force, dc, depth, md =>
    if depthExceeded depth md then ⟨.ok (argAsIs a), h, [], false⟩
    else
      match a with
      | .node i => compute fuel h i force false dc (md.map (fun d => d - 1))
      | .val v => ⟨.ok v, h, [], false⟩

end

/-! ### Basic heap lemmas -/

def shapeF (nd : Latent) : String × List Arg × List (String × Arg) × List NodeId × Bool :=
  (nd.func_name, nd.args, nd.kwargs, nd.dependents, nd.disable_cache)

def shape (h : Heap) : List (NodeId × (String × List Arg × List (String × Arg) × List NodeId × Bool)) :=
  h.map (fun p => (p.1, shapeF p.2))

theorem lookup_modifyAt (h : Heap) (i : NodeId) (f : Latent → Latent) (j : NodeId) :
    Heap.lookup (Heap.modifyAt h i f) j =
      if i = j then (Heap.lookup h j).map f else Heap.lookup h j := by
  have hpred : ((fun p : NodeId × Latent => p.1 == j) ∘
      (fun p : NodeId × Latent => if p.1 == i then (p.1, f p.2) else p)) =
      (fun p : NodeId × Latent => p.1 == j) := by
    funext p
    by_cases hpi : p.1 = i <;> simp [hpi]
  unfold Heap.modifyAt Heap.lookup
  rw [List.find?_map, hpred]
  cases hfind : List.find? (fun p : NodeId × Latent => p.1 == j) h with
  | none => simp
  | some a =>
    have ha : a.1 = j := by simpa using List.find?_some hfind
    by_cases hij : i = j
    · subst hij
      simp [ha]
    · have : ¬ a.1 = i := by rw [ha]; exact fun hc => hij hc.symm
      simp [this, hij]

theorem cacheOf_modifyAt (h : Heap) (i : NodeId) (f : Latent → Latent) (j : NodeId) :
    cacheOf (Heap.modifyAt h i f) j =
      if i = j then
        (match Heap.lookup h j with
         | some nd => (f nd).latent_data
         | none => none)
      else cacheOf h j := by
  unfold cacheOf
  rw [lookup_modifyAt]
  by_cases hij : i = j
  · cases Heap.lookup h j <;> simp [hij]
  · simp [hij]

theorem flagOf_modifyAt (h : Heap) (i : NodeId) (f : Latent → Latent) (j : NodeId) :
    flagOf (Heap.modifyAt h i f) j =
      if i = j then
        (match Heap.lookup h j with
         | some nd => (f nd).needs_recomputation
         | none => false)
      else flagOf h j := by
  unfold flagOf
  rw [lookup_modifyAt]
  by_cases hij : i = j
  · cases Heap.lookup h j <;> simp [hij]
  · simp [hij]

theorem computingOf_modifyAt (h : Heap) (i : NodeId) (f : Latent → Latent) (j : NodeId) :
    computingOf (Heap.modifyAt h i f) j =
      if i = j then
        (match Heap.lookup h j with
         | some nd => (f nd).computing
         | none => false)
      else computingOf h j := by
  unfold computingOf
  rw [lookup_modifyAt]
  by_cases hij : i = j
  · cases Heap.lookup h j <;> simp [hij]
  · simp [hij]

theorem shape_modifyAt (h : Heap) (i : NodeId) (f : Latent → Latent)
    (hf : ∀ nd, shapeF (f nd) = shapeF nd) :
    shape (Heap.modifyAt h i f) = shape h := by
  unfold shape Heap.modifyAt
  rw [List.map_map]
  apply List.map_congr_left
  intro p _
  by_cases hpi : p.1 = i <;> simp [hpi, hf]

theorem shapeF_setComp (b : Bool) (m : Latent) : shapeF (setComp b m) = shapeF m := rfl

theorem shapeF_setCacheV (v : Val) (m : Latent) : shapeF (setCacheV v m) = shapeF m := rfl

theorem shapeF_stMark (m : Latent) : shapeF (stMark m) = shapeF m := rfl

theorem skeleton_eq_of_shape {h h' : Heap} (e : shape h = shape h') :
    skeleton h = skeleton h' := by
  have k : ∀ g : Heap, skeleton g =
      (shape g).map (fun q => (q.1, (q.2.2.1, q.2.2.2.1))) := by
    intro g
    unfold skeleton shape
    rw [List.map_map]
    rfl
  rw [k, k, e]

theorem lookup_map_shapeF {h h' : Heap} (e : shape h = shape h') (j : NodeId) :
    (Heap.lookup h j).map shapeF = (Heap.lookup h' j).map shapeF := by
  have k : ∀ g : Heap,
      List.find? (fun q => q.1 == j) (shape g) =
        (List.find? (fun p : NodeId × Latent => p.1 == j) g).map
          (fun p => (p.1, shapeF p.2)) := by
    intro g
    unfold shape
    rw [List.find?_map]
    rfl
  have e2 := congrArg (List.find? (fun q => q.1 == j)) e
  rw [k, k] at e2
  have e3 := congrArg (Option.map (fun q :
    NodeId × (String × List Arg × List (String × Arg) × List NodeId × Bool) => q.2)) e2
  rw [Option.map_map, Option.map_map] at e3
  unfold Heap.lookup
  rw [Option.map_map, Option.map_map]
  exact e3

/-! ### Lemmas about staleness propagation -/

theorem stMark_idem (m : Latent) : stMark (stMark m) = stMark m := rfl

theorem foldMark_lookup (L s : List NodeId) (h : Heap) (j : NodeId) :
    Heap.lookup (L.foldl (fun hh i => if i ∈ s then hh else Heap.modifyAt hh i stMark) h) j =
        Heap.lookup h j ∨
      Heap.lookup (L.foldl (fun hh i => if i ∈ s then hh else Heap.modifyAt hh i stMark) h) j =
        (Heap.lookup h j).map stMark := by
  induction L generalizing h with
  | nil => exact Or.inl rfl
  | cons i L ih =>
    simp only [List.foldl_cons]
    rcases ih (if i ∈ s then h else Heap.modifyAt h i stMark) with hc | hc <;>
      rw [hc] <;> clear hc
    · by_cases hmem : i ∈ s
      · simp [hmem]
      · simp only [hmem, if_false]
        rw [lookup_modifyAt]
        by_cases hij : i = j <;> simp [hij]
    · by_cases hmem : i ∈ s
      · simp [hmem]
      · simp only [hmem, if_false]
        rw [lookup_modifyAt]
        by_cases hij : i = j
        · subst hij
          cases Heap.lookup h i <;> simp [stMark_idem]
        · simp [hij]

theorem correction_lookup (h : Heap) (G : DiGraph) (j : NodeId) :
    Heap.lookup (correct_computed_status h G) j = Heap.lookup h j ∨
      Heap.lookup (correct_computed_status h G) j = (Heap.lookup h j).map stMark := by
  unfold correct_computed_status
  exact foldMark_lookup _ _ h j

theorem correction_computingOf (h : Heap) (G : DiGraph) (j : NodeId) :
    computingOf (correct_computed_status h G) j = computingOf h j := by
  unfold computingOf
  rcases correction_lookup h G j with hc | hc
  · rw [hc]
  · rw [hc]
    cases Heap.lookup h j <;> rfl

theorem correction_flag_mono (h : Heap) (G : DiGraph) (j : NodeId)
    (hf : flagOf h j = true) : flagOf (correct_computed_status h G) j = true := by
  unfold flagOf at hf ⊢
  rcases correction_lookup h G j with hc | hc
  · rw [hc]
    exact hf
  · rw [hc]
    cases hl : Heap.lookup h j
    · rw [hl] at hf
      exact absurd hf (by simp)
    · simp [stMark]

theorem correction_cacheOf (h : Heap) (G : DiGraph) (j : NodeId) :
    cacheOf (correct_computed_status h G) j = cacheOf h j ∨
      cacheOf (correct_computed_status h G) j = none := by
  rcases correction_lookup h G j with hc | hc <;> unfold cacheOf <;> rw [hc]
  · exact Or.inl rfl
  · cases Heap.lookup h j <;> simp [stMark]

theorem foldMark_shape (L s : List NodeId) (h : Heap) :
    shape (L.foldl (fun hh i => if i ∈ s then hh else Heap.modifyAt hh i stMark) h) =
      shape h := by
  induction L generalizing h with
  | nil => rfl
  | cons i L ih =>
    simp only [List.foldl_cons]
    rw [ih]
    by_cases hmem : i ∈ s
    · simp [hmem]
    · simp only [hmem, if_false]
      exact shape_modifyAt h i stMark shapeF_stMark

theorem correction_shape (h : Heap) (G : DiGraph) :
    shape (correct_computed_status h G) = shape h := by
  unfold correct_computed_status
  exact foldMark_shape _ _ h

theorem fwdStep_nil (es : List (NodeId × NodeId)) : fwdStep es [] = [] := by
  unfold fwdStep
  simp

theorem iterFwd_nil (k : Nat) (es : List (NodeId × NodeId)) : iterFwd k es [] = [] := by
  induction k with
  | zero => rfl
  | succ k ih => rw [iterFwd, fwdStep_nil, ih]

theorem reachFwd_nil (es : List (NodeId × NodeId)) : reachFwd es [] = [] :=
  iterFwd_nil _ es

/-- When no node of the graph is marked stale, `correct_computed_status` is
the identity on the heap. -/
theorem correction_clean (h : Heap) (G : DiGraph)
    (hs : G.nodes.filter (fun i => flagOf h i) = []) :
    correct_computed_status h G = h := by
  unfold correct_computed_status
  rw [hs]
  simp [reachFwd_nil]

/-! ### Shape-level facts about the compute path -/

theorem computingOf_reset_self (h : Heap) (n : NodeId) :
    computingOf (resetComputing h n) n = false := by
  unfold resetComputing computingOf
  rw [lookup_modifyAt]
  simp only [if_pos rfl]
  cases Heap.lookup h n <;> rfl

theorem computingOf_reset_other (h : Heap) (n p : NodeId) (hnp : ¬ n = p) :
    computingOf (resetComputing h p) n = computingOf h n := by
  unfold resetComputing computingOf
  rw [lookup_modifyAt]
  have hpn : ¬ p = n := fun hc => hnp hc.symm
  simp [hpn]

theorem computingOf_setCacheV (h : Heap) (i : NodeId) (v : Val) (p : NodeId) :
    computingOf (Heap.modifyAt h i (setCacheV v)) p = computingOf h p := by
  rw [computingOf_modifyAt]
  by_cases hip : i = p
  · subst hip
    unfold computingOf
    cases Heap.lookup h i <;> simp [setCacheV]
  · simp [hip]

theorem missPath_viaCache (fuel : Nat) (h : Heap) (n : NodeId) (nd : Latent) (rd dc : Bool)
    (md : Option Int) : (missPath fuel h n nd rd dc md).viaCache = false := by
  cases fuel with
  | zero => rfl
  | succ fuel =>
    simp only [missPath]
    split
    · rfl
    · rfl
    · split
      · rfl
      · rfl
      · split
        · rfl
        · rfl

/-- Per-node preservation of a cleared computing flag by the whole evaluator:
every frame sets only its own node's flag and unconditionally resets it. -/
theorem computingPres : ∀ fuel : Nat,
    (∀ h n force rd dc md p, computingOf h p = false →
      computingOf (compute fuel h n force rd dc md).heap p = false) ∧
    (∀ h n nd rd dc md p, computingOf h p = false →
      computingOf (missPath fuel h n nd rd dc md).heap p = false) ∧
    (∀ h as force dc md p, computingOf h p = false →
      computingOf (resolveArgs fuel h as force dc md).2.1 p = false) ∧
    (∀ h ps force dc md p, computingOf h p = false →
      computingOf (resolveKwargs fuel h ps force dc md).2.1 p = false) ∧
    (∀ h a force dc depth md p, computingOf h p = false →
      computingOf (compute_nested fuel h a force dc depth md).heap p = false) := by
  intro fuel
  induction fuel with
  | zero =>
    exact ⟨fun _ _ _ _ _ _ _ hp => hp, fun _ _ _ _ _ _ _ hp => hp,
      fun _ _ _ _ _ _ hp => hp, fun _ _ _ _ _ _ hp => hp, fun _ _ _ _ _ _ _ hp => hp⟩
  | succ fuel ih =>
    obtain ⟨ihC, ihM, ihA, ihK, ihN⟩ := ih
    refine ⟨?_, ?_, ?_, ?_, ?_⟩
    · intro h n force rd dc md p hp
      simp only [compute]
      split
      · exact hp
      · split
        · exact hp
        · split
          · exact hp
          · split
            · rw [correction_computingOf]
              exact hp
            · apply ihM
              rw [correction_computingOf]
              exact hp
    · intro h n nd rd dc md p hp
      by_cases hnp : n = p
      · subst hnp
        simp only [missPath]
        split
        · exact computingOf_reset_self _ _
        · exact computingOf_reset_self _ _
        · split
          · exact computingOf_reset_self _ _
          · exact computingOf_reset_self _ _
          · split
            · exact computingOf_reset_self _ _
            · exact computingOf_reset_self _ _
      · have hp2 : computingOf (Heap.modifyAt h n (setComp true)) p = false := by
          rw [computingOf_modifyAt]
          simp [hnp, hp]
        simp only [missPath]
        split
        · rw [computingOf_reset_other _ p n (fun hc => hnp hc.symm)]
          exact ihA _ _ _ _ _ _ hp2
        · rw [computingOf_reset_other _ p n (fun hc => hnp hc.symm)]
          exact ihA _ _ _ _ _ _ hp2
        · split
          · rw [computingOf_reset_other _ p n (fun hc => hnp hc.symm)]
            exact ihK _ _ _ _ _ _ (ihA _ _ _ _ _ _ hp2)
          · rw [computingOf_reset_other _ p n (fun hc => hnp hc.symm)]
            exact ihK _ _ _ _ _ _ (ihA _ _ _ _ _ _ hp2)
          · split
            · rw [computingOf_reset_other _ p n (fun hc => hnp hc.symm)]
              exact ihK _ _ _ _ _ _ (ihA _ _ _ _ _ _ hp2)
            · rw [computingOf_reset_other _ p n (fun hc => hnp hc.symm)]
              split
              · rw [computingOf_setCacheV]
                exact ihK _ _ _ _ _ _ (ihA _ _ _ _ _ _ hp2)
              · exact ihK _ _ _ _ _ _ (ihA _ _ _ _ _ _ hp2)
    · intro h as force dc md p hp
      match as with
      | [] => exact hp
      | a :: rest =>
        simp only [resolveArgs]
        split
        · exact ihN _ _ _ _ _ _ _ hp
        · exact ihN _ _ _ _ _ _ _ hp
        · split
          · exact ihA _ _ _ _ _ _ (ihN _ _ _ _ _ _ _ hp)
          · exact ihA _ _ _ _ _ _ (ihN _ _ _ _ _ _ _ hp)
          · exact ihA _ _ _ _ _ _ (ihN _ _ _ _ _ _ _ hp)
    · intro h ps force dc md p hp
      match ps with
      | [] => exact hp
      | q :: rest =>
        simp only [resolveKwargs]
        split
        · exact ihN _ _ _ _ _ _ _ hp
        · exact ihN _ _ _ _ _ _ _ hp
        · split
          · exact ihK _ _ _ _ _ _ (ihN _ _ _ _ _ _ _ hp)
          · exact ihK _ _ _ _ _ _ (ihN _ _ _ _ _ _ _ hp)
          · exact ihK _ _ _ _ _ _ (ihN _ _ _ _ _ _ _ hp)
    · intro h a force dc depth md p hp
      simp only [compute_nested]
      split
      · exact hp
      · split
        · exact ihC _ _ _ _ _ _ _ hp
        · exact hp

theorem cacheOf_setComp (h : Heap) (i : NodeId) (b : Bool) (p : NodeId) :
    cacheOf (Heap.modifyAt h i (setComp b)) p = cacheOf h p := by
  rw [cacheOf_modifyAt]
  by_cases hip : i = p
  · subst hip
    unfold cacheOf
    cases Heap.lookup h i <;> simp [setComp]
  · simp [hip]

theorem flagOf_setComp (h : Heap) (i : NodeId) (b : Bool) (p : NodeId) :
    flagOf (Heap.modifyAt h i (setComp b)) p = flagOf h p := by
  rw [flagOf_modifyAt]
  by_cases hip : i = p
  · subst hip
    unfold flagOf
    cases Heap.lookup h i <;> simp [setComp]
  · simp [hip]

theorem flagOf_setCacheV (h : Heap) (i : NodeId) (v : Val) (p : NodeId) :
    flagOf (Heap.modifyAt h i (setCacheV v)) p = flagOf h p := by
  rw [flagOf_modifyAt]
  by_cases hip : i = p
  · subst hip
    unfold flagOf
    cases Heap.lookup h i <;> simp [setCacheV]
  · simp [hip]

theorem cacheOf_reset (h : Heap) (n p : NodeId) :
    cacheOf (resetComputing h n) p = cacheOf h p :=
  cacheOf_setComp h n false p

theorem cacheOf_setCacheV_other (h : Heap) (i : NodeId) (v : Val) (p : NodeId) (hip : ¬ i = p) :
    cacheOf (Heap.modifyAt h i (setCacheV v)) p = cacheOf h p := by
  rw [cacheOf_modifyAt]
  simp [hip]

theorem cacheKeep_trans {h1 h2 h3 : Heap} {p : NodeId}
    (a : cacheOf h2 p = cacheOf h1 p ∨ cacheOf h2 p = none)
    (b : cacheOf h3 p = cacheOf h2 p ∨ cacheOf h3 p = none) :
    cacheOf h3 p = cacheOf h1 p ∨ cacheOf h3 p = none := by
  rcases b with b | b
  · rcases a with a | a
    · exact Or.inl (b.trans a)
    · exact Or.inr (b.trans a)
  · exact Or.inr b

theorem not_mem_app3 {p n : NodeId} {l1 l2 : List NodeId}
    (h1 : p ∉ l1) (h2 : p ∉ l2) (hnp : ¬ n = p) : p ∉ l1 ++ l2 ++ [n] := by
  intro hmem
  rcases List.mem_append.1 hmem with hm | hm
  · rcases List.mem_append.1 hm with hm2 | hm2
    · exact h1 hm2
    · exact h2 hm2
  · have hpn : p = n := by simpa using hm
    exact hnp hpn.symm

/-- Invariant of a node whose `computing` flag is set: every other frame
leaves the flag set, never stores into its cache (corrections may clear it),
and never invokes its callable — a frame on the node itself fails at the
reentrancy guard before doing anything. -/
theorem busyPres : ∀ fuel : Nat,
    (∀ h n force rd dc md p, computingOf h p = true →
      computingOf (compute fuel h n force rd dc md).heap p = true ∧
      (cacheOf (compute fuel h n force rd dc md).heap p = cacheOf h p ∨
        cacheOf (compute fuel h n force rd dc md).heap p = none) ∧
      p ∉ (compute fuel h n force rd dc md).log) ∧
    (∀ h n nd rd dc md p, computingOf h p = true → ¬ n = p →
      computingOf (missPath fuel h n nd rd dc md).heap p = true ∧
      (cacheOf (missPath fuel h n nd rd dc md).heap p = cacheOf h p ∨
        cacheOf (missPath fuel h n nd rd dc md).heap p = none) ∧
      p ∉ (missPath fuel h n nd rd dc md).log) ∧
    (∀ h as force dc md p, computingOf h p = true →
      computingOf (resolveArgs fuel h as force dc md).2.1 p = true ∧
      (cacheOf (resolveArgs fuel h as force dc md).2.1 p = cacheOf h p ∨
        cacheOf (resolveArgs fuel h as force dc md).2.1 p = none) ∧
      p ∉ (resolveArgs fuel h as force dc md).2.2) ∧
    (∀ h ps force dc md p, computingOf h p = true →
      computingOf (resolveKwargs fuel h ps force dc md).2.1 p = true ∧
      (cacheOf (resolveKwargs fuel h ps force dc md).2.1 p = cacheOf h p ∨
        cacheOf (resolveKwargs fuel h ps force dc md).2.1 p = none) ∧
      p ∉ (resolveKwargs fuel h ps force dc md).2.2) ∧
    (∀ h a force dc depth md p, computingOf h p = true →
      computingOf (compute_nested fuel h a force dc depth md).heap p = true ∧
      (cacheOf (compute_nested fuel h a force dc depth md).heap p = cacheOf h p ∨
        cacheOf (compute_nested fuel h a force dc depth md).heap p = none) ∧
      p ∉ (compute_nested fuel h a force dc depth md).log) := by
  intro fuel
  induction fuel with
  | zero =>
    refine ⟨?_, ?_, ?_, ?_, ?_⟩
    · exact fun _ _ _ _ _ _ _ hp => ⟨hp, Or.inl rfl, by simp [compute]⟩
    · exact fun _ _ _ _ _ _ _ hp _ => ⟨hp, Or.inl rfl, by simp [missPath]⟩
    · exact fun _ _ _ _ _ _ hp => ⟨hp, Or.inl rfl, by simp [resolveArgs]⟩
    · exact fun _ _ _ _ _ _ hp => ⟨hp, Or.inl rfl, by simp [resolveKwargs]⟩
    · exact fun _ _ _ _ _ _ _ hp => ⟨hp, Or.inl rfl, by simp [compute_nested]⟩
  | succ fuel ih =>
    obtain ⟨ihC, ihM, ihA, ihK, ihN⟩ := ih
    refine ⟨?_, ?_, ?_, ?_, ?_⟩
    · intro h n force rd dc md p hp
      simp only [compute]
      split
      · exact ⟨hp, Or.inl rfl, by simp⟩
      · next nd hnd =>
        split
        · exact ⟨hp, Or.inl rfl, by simp⟩
        · next hcomp =>
          split
          · exact ⟨hp, Or.inl rfl, by simp⟩
          · have hnp : ¬ n = p := by
              intro hc
              subst hc
              unfold computingOf at hp
              rw [hnd] at hp
              exact hcomp hp
            split
            · exact ⟨by rw [correction_computingOf]; exact hp,
                correction_cacheOf h _ p, by simp⟩
            · have hp1 : computingOf (correct_computed_status h (get_dependency_graph h n)) p
                  = true := by
                rw [correction_computingOf]; exact hp
              obtain ⟨m1, m2, m3⟩ := ihM _ n nd rd dc md p hp1 hnp
              exact ⟨m1, cacheKeep_trans (correction_cacheOf h _ p) m2, m3⟩
    · intro h n nd rd dc md p hp hnp
      have hp2 : computingOf (Heap.modifyAt h n (setComp true)) p = true := by
        rw [computingOf_modifyAt]
        simp only [if_neg hnp]
        exact hp
      have hc2 : cacheOf (Heap.modifyAt h n (setComp true)) p = cacheOf h p :=
        cacheOf_setComp h n true p
      obtain ⟨a1, a2, a3⟩ := ihA (Heap.modifyAt h n (setComp true)) nd.args rd dc md p hp2
      simp only [missPath]
      split
      · exact ⟨by rw [computingOf_reset_other _ p n (fun hc => hnp hc.symm)]; exact a1,
          by rw [cacheOf_reset]; rw [hc2] at a2; exact a2, a3⟩
      · exact ⟨by rw [computingOf_reset_other _ p n (fun hc => hnp hc.symm)]; exact a1,
          by rw [cacheOf_reset]; rw [hc2] at a2; exact a2, a3⟩
      · obtain ⟨k1, k2, k3⟩ := ihK _ nd.kwargs rd dc md p a1
        have kc : cacheOf (resolveKwargs fuel (resolveArgs fuel
            (Heap.modifyAt h n (setComp true)) nd.args rd dc md).2.1
            nd.kwargs rd dc md).2.1 p = cacheOf h p ∨
            cacheOf (resolveKwargs fuel (resolveArgs fuel
            (Heap.modifyAt h n (setComp true)) nd.args rd dc md).2.1
            nd.kwargs rd dc md).2.1 p = none := by
          rw [hc2] at a2
          exact cacheKeep_trans a2 k2
        split
        · exact ⟨by rw [computingOf_reset_other _ p n (fun hc => hnp hc.symm)]; exact k1,
            by rw [cacheOf_reset]; exact kc, by simp [a3, k3]⟩
        · exact ⟨by rw [computingOf_reset_other _ p n (fun hc => hnp hc.symm)]; exact k1,
            by rw [cacheOf_reset]; exact kc, by simp [a3, k3]⟩
        · split
          · refine ⟨?_, ?_, ?_⟩
            · rw [computingOf_reset_other _ p n (fun hc => hnp hc.symm)]
              exact k1
            · rw [cacheOf_reset]
              exact kc
            · exact not_mem_app3 a3 k3 hnp
          · refine ⟨?_, ?_, ?_⟩
            · rw [computingOf_reset_other _ p n (fun hc => hnp hc.symm)]
              split
              · rw [computingOf_setCacheV]
                exact k1
              · exact k1
            · rw [cacheOf_reset]
              split
              · rw [cacheOf_setCacheV_other _ _ _ _ hnp]
                exact kc
              · exact kc
            · exact not_mem_app3 a3 k3 hnp
    · intro h as force dc md p hp
      match as with
      | [] => exact ⟨hp, Or.inl rfl, by simp [resolveArgs]⟩
      | a :: rest =>
        obtain ⟨n1, n2, n3⟩ := ihN h a force dc 0 md p hp
        simp only [resolveArgs]
        split
        · exact ⟨n1, n2, n3⟩
        · exact ⟨n1, n2, n3⟩
        · obtain ⟨r1, r2, r3⟩ := ihA _ rest force dc md p n1
          have rc := cacheKeep_trans n2 r2
          split
          · exact ⟨r1, rc, by simp [n3, r3]⟩
          · exact ⟨r1, rc, by simp [n3, r3]⟩
          · exact ⟨r1, rc, by simp [n3, r3]⟩
    · intro h ps force dc md p hp
      match ps with
      | [] => exact ⟨hp, Or.inl rfl, by simp [resolveKwargs]⟩
      | q :: rest =>
        obtain ⟨n1, n2, n3⟩ := ihN h q.2 force dc 0 md p hp
        simp only [resolveKwargs]
        split
        · exact ⟨n1, n2, n3⟩
        · exact ⟨n1, n2, n3⟩
        · obtain ⟨r1, r2, r3⟩ := ihK _ rest force dc md p n1
          have rc := cacheKeep_trans n2 r2
          split
          · exact ⟨r1, rc, by simp [n3, r3]⟩
          · exact ⟨r1, rc, by simp [n3, r3]⟩
          · exact ⟨r1, rc, by simp [n3, r3]⟩
    · intro h a force dc depth md p hp
      simp only [compute_nested]
      split
      · exact ⟨hp, Or.inl rfl, by simp⟩
      · split
        · exact ihC _ _ _ _ _ _ p hp
        · exact ⟨hp, Or.inl rfl, by simp⟩

theorem shape_setComp (h : Heap) (i : NodeId) (b : Bool) :
    shape (Heap.modifyAt h i (setComp b)) = shape h :=
  shape_modifyAt h i (setComp b) (shapeF_setComp b)

theorem shape_setCacheV (h : Heap) (i : NodeId) (v : Val) :
    shape (Heap.modifyAt h i (setCacheV v)) = shape h :=
  shape_modifyAt h i (setCacheV v) (shapeF_setCacheV v)

/-- The evaluator never changes the structural content of the heap: names,
callables, argument lists, dependents and cache policy are left intact by
`compute`; only caches and the two flags move. -/
theorem shapePres : ∀ fuel : Nat,
    (∀ h n force rd dc md, shape (compute fuel h n force rd dc md).heap = shape h) ∧
    (∀ h n nd rd dc md, shape (missPath fuel h n nd rd dc md).heap = shape h) ∧
    (∀ h as force dc md, shape (resolveArgs fuel h as force dc md).2.1 = shape h) ∧
    (∀ h ps force dc md, shape (resolveKwargs fuel h ps force dc md).2.1 = shape h) ∧
    (∀ h a force dc depth md, shape (compute_nested fuel h a force dc depth md).heap = shape h) := by
  intro fuel
  induction fuel with
  | zero =>
    exact ⟨fun _ _ _ _ _ _ => rfl, fun _ _ _ _ _ _ => rfl,
      fun _ _ _ _ _ => rfl, fun _ _ _ _ _ => rfl, fun _ _ _ _ _ _ => rfl⟩
  | succ fuel ih =>
    obtain ⟨ihC, ihM, ihA, ihK, ihN⟩ := ih
    refine ⟨?_, ?_, ?_, ?_, ?_⟩
    · intro h n force rd dc md
      simp only [compute]
      split
      · rfl
      · split
        · rfl
        · split
          · rfl
          · split
            · exact correction_shape h _
            · rw [ihM, correction_shape]
    · intro h n nd rd dc md
      simp only [missPath]
      split
      · unfold resetComputing
        rw [shape_setComp, ihA, shape_setComp]
      · unfold resetComputing
        rw [shape_setComp, ihA, shape_setComp]
      · split
        · unfold resetComputing
          rw [shape_setComp, ihK, ihA, shape_setComp]
        · unfold resetComputing
          rw [shape_setComp, ihK, ihA, shape_setComp]
        · split
          · unfold resetComputing
            rw [shape_setComp, ihK, ihA, shape_setComp]
          · unfold resetComputing
            rw [shape_setComp]
            split
            · rw [shape_setCacheV, ihK, ihA, shape_setComp]
            · rw [ihK, ihA, shape_setComp]
    · intro h as force dc md
      match as with
      | [] => rfl
      | a :: rest =>
        simp only [resolveArgs]
        split
        · exact ihN _ _ _ _ _ _
        · exact ihN _ _ _ _ _ _
        · split
          · rw [ihA, ihN]
          · rw [ihA, ihN]
          · rw [ihA, ihN]
    · intro h ps force dc md
      match ps with
      | [] => rfl
      | q :: rest =>
        simp only [resolveKwargs]
        split
        · exact ihN _ _ _ _ _ _
        · exact ihN _ _ _ _ _ _
        · split
          · rw [ihK, ihN]
          · rw [ihK, ihN]
          · rw [ihK, ihN]
    · intro h a force dc depth md
      simp only [compute_nested]
      split
      · rfl
      · split
        · exact ihC _ _ _ _ _ _
        · rfl

def AllClean (h : Heap) : Prop := ∀ q, flagOf h q = false

theorem allClean_setComp {h : Heap} (i : NodeId) (b : Bool) (hc : AllClean h) :
    AllClean (Heap.modifyAt h i (setComp b)) := by
  intro q
  rw [flagOf_setComp]
  exact hc q

theorem allClean_setCacheV {h : Heap} (i : NodeId) (v : Val) (hc : AllClean h) :
    AllClean (Heap.modifyAt h i (setCacheV v)) := by
  intro q
  rw [flagOf_setCacheV]
  exact hc q

theorem allClean_seeds {h : Heap} (G : DiGraph) (hc : AllClean h) :
    G.nodes.filter (fun i => flagOf h i) = [] := by
  rw [List.filter_eq_nil_iff]
  intro a _
  rw [hc a]
  exact Bool.false_ne_true

/-- With no stale markings anywhere, `compute` leaves every
`needs_recomputation` flag cleared: nothing in the evaluator sets a flag
except the staleness correction, which has nothing to propagate. -/
theorem cleanPres : ∀ fuel : Nat,
    (∀ h n force rd dc md, AllClean h → AllClean (compute fuel h n force rd dc md).heap) ∧
    (∀ h n nd rd dc md, AllClean h → AllClean (missPath fuel h n nd rd dc md).heap) ∧
    (∀ h as force dc md, AllClean h → AllClean (resolveArgs fuel h as force dc md).2.1) ∧
    (∀ h ps force dc md, AllClean h → AllClean (resolveKwargs fuel h ps force dc md).2.1) ∧
    (∀ h a force dc depth md, AllClean h → AllClean (compute_nested fuel h a force dc depth md).heap) := by
  intro fuel
  induction fuel with
  | zero =>
    exact ⟨fun _ _ _ _ _ _ hc => hc, fun _ _ _ _ _ _ hc => hc,
      fun _ _ _ _ _ hc => hc, fun _ _ _ _ _ hc => hc, fun _ _ _ _ _ _ hc => hc⟩
  | succ fuel ih =>
    obtain ⟨ihC, ihM, ihA, ihK, ihN⟩ := ih
    refine ⟨?_, ?_, ?_, ?_, ?_⟩
    · intro h n force rd dc md hc
      simp only [compute]
      split
      · exact hc
      · split
        · exact hc
        · split
          · exact hc
          · rw [correction_clean h _ (allClean_seeds _ hc)]
            split
            · exact hc
            · exact ihM _ _ _ _ _ _ hc
    · intro h n nd rd dc md hc
      have hc2 := allClean_setComp (h := h) n true hc
      simp only [missPath]
      split
      · exact allClean_setComp n false (ihA _ _ _ _ _ hc2)
      · exact allClean_setComp n false (ihA _ _ _ _ _ hc2)
      · split
        · exact allClean_setComp n false (ihK _ _ _ _ _ (ihA _ _ _ _ _ hc2))
        · exact allClean_setComp n false (ihK _ _ _ _ _ (ihA _ _ _ _ _ hc2))
        · split
          · exact allClean_setComp n false (ihK _ _ _ _ _ (ihA _ _ _ _ _ hc2))
          · split
            · exact allClean_setComp n false
                (allClean_setCacheV _ _ (ihK _ _ _ _ _ (ihA _ _ _ _ _ hc2)))
            · exact allClean_setComp n false (ihK _ _ _ _ _ (ihA _ _ _ _ _ hc2))
    · intro h as force dc md hc
      match as with
      | [] => exact hc
      | a :: rest =>
        simp only [resolveArgs]
        split
        · exact ihN _ _ _ _ _ _ hc
        · exact ihN _ _ _ _ _ _ hc
        · split
          · exact ihA _ _ _ _ _ (ihN _ _ _ _ _ _ hc)
          · exact ihA _ _ _ _ _ (ihN _ _ _ _ _ _ hc)
          · exact ihA _ _ _ _ _ (ihN _ _ _ _ _ _ hc)
    · intro h ps force dc md hc
      match ps with
      | [] => exact hc
      | q :: rest =>
        simp only [resolveKwargs]
        split
        · exact ihN _ _ _ _ _ _ hc
        · exact ihN _ _ _ _ _ _ hc
        · split
          · exact ihK _ _ _ _ _ (ihN _ _ _ _ _ _ hc)
          · exact ihK _ _ _ _ _ (ihN _ _ _ _ _ _ hc)
          · exact ihK _ _ _ _ _ (ihN _ _ _ _ _ _ hc)
    · intro h a force dc depth md hc
      simp only [compute_nested]
      split
      · exact hc
      · split
        · exact ihC _ _ _ _ _ _ hc
        · exact hc

/-- With `dont_cache` set, no frame anywhere stores into any cache slot: the
flag is handed down to every dependency, every frame's store is suppressed,
and the only remaining cache writes are the clears of staleness
correction. -/
theorem dontCachePres : ∀ fuel : Nat,
    (∀ h n force rd md q,
      cacheOf (compute fuel h n force rd true md).heap q = cacheOf h q ∨
      cacheOf (compute fuel h n force rd true md).heap q = none) ∧
    (∀ h n nd rd md q,
      cacheOf (missPath fuel h n nd rd true md).heap q = cacheOf h q ∨
      cacheOf (missPath fuel h n nd rd true md).heap q = none) ∧
    (∀ h as force md q,
      cacheOf (resolveArgs fuel h as force true md).2.1 q = cacheOf h q ∨
      cacheOf (resolveArgs fuel h as force true md).2.1 q = none) ∧
    (∀ h ps force md q,
      cacheOf (resolveKwargs fuel h ps force true md).2.1 q = cacheOf h q ∨
      cacheOf (resolveKwargs fuel h ps force true md).2.1 q = none) ∧
    (∀ h a force depth md q,
      cacheOf (compute_nested fuel h a force true depth md).heap q = cacheOf h q ∨
      cacheOf (compute_nested fuel h a force true depth md).heap q = none) := by
  intro fuel
  induction fuel with
  | zero =>
    exact ⟨fun _ _ _ _ _ _ => Or.inl rfl, fun _ _ _ _ _ _ => Or.inl rfl,
      fun _ _ _ _ _ => Or.inl rfl, fun _ _ _ _ _ => Or.inl rfl, fun _ _ _ _ _ _ => Or.inl rfl⟩
  | succ fuel ih =>
    obtain ⟨ihC, ihM, ihA, ihK, ihN⟩ := ih
    refine ⟨?_, ?_, ?_, ?_, ?_⟩
    · intro h n force rd md q
      simp only [compute]
      split
      · exact Or.inl rfl
      · split
        · exact Or.inl rfl
        · split
          · exact Or.inl rfl
          · split
            · exact correction_cacheOf h _ q
            · exact cacheKeep_trans (correction_cacheOf h _ q) (ihM _ _ _ _ _ q)
    · intro h n nd rd md q
      have hstep : cacheOf (Heap.modifyAt h n (setComp true)) q = cacheOf h q :=
        cacheOf_setComp h n true q
      have hra := cacheKeep_trans (Or.inl hstep)
        (ihA (Heap.modifyAt h n (setComp true)) nd.args rd md q)
      simp only [missPath]
      split
      · rw [cacheOf_reset]
        exact hra
      · rw [cacheOf_reset]
        exact hra
      · have hrk := cacheKeep_trans hra (ihK _ nd.kwargs rd md q)
        split
        · rw [cacheOf_reset]
          exact hrk
        · rw [cacheOf_reset]
          exact hrk
        · split
          · rw [cacheOf_reset]
            exact hrk
          · rw [cacheOf_reset]
            split
            · next hcond => exact absurd hcond.2 (by simp)
            · exact hrk
    · intro h as force md q
      match as with
      | [] => exact Or.inl rfl
      | a :: rest =>
        simp only [resolveArgs]
        split
        · exact ihN _ _ _ _ _ q
        · exact ihN _ _ _ _ _ q
        · split
          · exact cacheKeep_trans (ihN _ _ _ _ _ q) (ihA _ _ _ _ q)
          · exact cacheKeep_trans (ihN _ _ _ _ _ q) (ihA _ _ _ _ q)
          · exact cacheKeep_trans (ihN _ _ _ _ _ q) (ihA _ _ _ _ q)
    · intro h ps force md q
      match ps with
      | [] => exact Or.inl rfl
      | p :: rest =>
        simp only [resolveKwargs]
        split
        · exact ihN _ _ _ _ _ q
        · exact ihN _ _ _ _ _ q
        · split
          · exact cacheKeep_trans (ihN _ _ _ _ _ q) (ihK _ _ _ _ q)
          · exact cacheKeep_trans (ihN _ _ _ _ _ q) (ihK _ _ _ _ q)
          · exact cacheKeep_trans (ihN _ _ _ _ _ q) (ihK _ _ _ _ q)
    · intro h a force depth md q
      simp only [compute_nested]
      split
      · exact Or.inl rfl
      · split
        · exact ihC _ _ _ _ _ q
        · exact Or.inl rfl

/-! ### Claim C1 -/

/-- C1: for every node `n` and every `n.compute()` with default flags, if any
node of the dependency graph built from `n` (an ancestor of `n`, i.e. a
dependency, direct or transitive) has `needs_recomputation = true` at the
start of the call, the call does not return `n`'s cached value as-is: the
stale node survives the staleness correction, lands in the stale set, and
the cache-eligibility test fails, forcing the recompute path. -/
theorem c1_stale_ancestor_blocks_cache (h : Heap) (n m : NodeId) (fuel : Nat)
    (hm : m ∈ (get_dependency_graph h n).nodes)
    (hf : flagOf h m = true) :
    (compute fuel h n false false false none).viaCache = false := by
  cases fuel with
  | zero => rfl
  | succ fuel =>
    simp only [compute]
    split
    · rfl
    · split
      · rfl
      · split
        · rfl
        · have hstale : m ∈ get_updated_nodes
              (correct_computed_status h (get_dependency_graph h n))
              (get_dependency_graph h n) := by
            unfold get_updated_nodes
            rw [List.mem_filter]
            exact ⟨hm, correction_flag_mono h _ m hf⟩
          have hne : get_updated_nodes
              (correct_computed_status h (get_dependency_graph h n))
              (get_dependency_graph h n) ≠ [] := by
            intro hc
            rw [hc] at hstale
            exact absurd hstale (List.not_mem_nil m)
          split
          · next v heq =>
            exfalso
            rw [if_neg (by
              intro hc
              exact hne hc.2.2)] at heq
            exact Option.noConfusion heq
          · exact missPath_viaCache _ _ _ _ _ _ _

def okImpl : List Val → List (String × Val) → Except PyErr Val :=
  fun _ _ => .ok (.int 0)

/-- A two-node heap for the C1 witness: node 0 is a stale dependency of node
1, and node 1 holds a (logically stale) cached value. -/
def heapC1 : Heap :=
  [(0, { func_name := "base", impl := okImpl, args := [Arg.val (Val.int 5)], kwargs := [],
         latent_data := some (Val.int 10), needs_recomputation := true, computing := false,
         dependents := [1], disable_cache := false }),
   (1, { func_name := "dependent", impl := okImpl, args := [Arg.node 0], kwargs := [],
         latent_data := some (Val.int 11), needs_recomputation := false, computing := false,
         dependents := [], disable_cache := false })]

theorem c1_witness :
    0 ∈ (get_dependency_graph heapC1 1).nodes ∧ flagOf heapC1 0 = true ∧
      (compute 5 heapC1 1 false false false none).viaCache = false :=
  ⟨by decide, by decide,
    c1_stale_ancestor_blocks_cache heapC1 1 0 5 (by decide) (by decide)⟩

/-! ### Claim C7 -/

/-- C7: if a node's `is_computing` flag is already set when `compute` is
entered, the call fails immediately with a RecursionError (circular
dependency) whose message names the node's callable, leaving the heap
untouched, building no graph, and evaluating nothing (empty invocation
log). -/
theorem c7_reentrancy_guard (fuel : Nat) (h : Heap) (n : NodeId) (nd : Latent)
    (force rd dc : Bool) (md : Option Int)
    (hl : Heap.lookup h n = some nd) (hc : nd.computing = true) :
    compute (fuel+1) h n force rd dc md =
      ⟨Out.err (recursionErr nd.func_name), h, [], false⟩ := by
  simp only [compute]
  rw [hl]
  simp [hc]

def heapC7 : Heap :=
  [(0, { func_name := "busy_func", impl := okImpl, args := [], kwargs := [],
         latent_data := none, needs_recomputation := false, computing := true,
         dependents := [], disable_cache := false })]

theorem c7_witness :
    compute 4 heapC7 0 false false false none =
      ⟨Out.err (recursionErr "busy_func"), heapC7, [], false⟩ :=
  c7_reentrancy_guard 3 heapC7 0
    { func_name := "busy_func", impl := okImpl, args := [], kwargs := [],
      latent_data := none, needs_recomputation := false, computing := true,
      dependents := [], disable_cache := false }
    false false false none rfl rfl

/-! ### Claim C9 -/

def raiseImpl : List Val → List (String × Val) → Except PyErr Val :=
  fun _ _ => .error (.base "ValueError" "Test error")

def heapC9 : Heap :=
  [(0, { func_name := "f", impl := raiseImpl, args := [], kwargs := [],
         latent_data := none, needs_recomputation := false, computing := true,
         dependents := [], disable_cache := false })]

/-- C9 counterexample: a `compute` call entered while `is_computing` is
already true terminates (raising the RecursionError of the reentrancy
guard), yet on exit the node's `is_computing` flag is still true — the guard
raises before the try/finally block is entered, so nothing resets the flag
in that call; the claim that every terminating call exits with
`is_computing = false` is false for such calls. -/
theorem c9_counterexample :
    (compute 5 heapC9 0 false false false none).res =
        Out.err (recursionErr "f") ∧
      computingOf (compute 5 heapC9 0 false false false none).heap 0 = true := by
  constructor <;> decide

/-- C9 amended: every `compute` call entered with `is_computing = false`
leaves `is_computing = false` on exit, for every node and on every outcome
(value, cached value, error or fuel exhaustion): the flag is set only inside
the try block and the finally-equivalent unconditionally resets it, and a
reentrant nested frame that finds the flag set fails before touching it.
(A call entered with the flag already true — the reentrancy-guard case —
exits with the flag still true, for the in-progress outer frame to reset.) -/
theorem c9_computing_reset (fuel : Nat) (h : Heap) (n : NodeId)
    (force rd dc : Bool) (md : Option Int) (p : NodeId)
    (hp : computingOf h p = false) :
    computingOf (compute fuel h n force rd dc md).heap p = false :=
  (computingPres fuel).1 h n force rd dc md p hp

def heapC9w : Heap :=
  [(0, { func_name := "f", impl := raiseImpl, args := [], kwargs := [],
         latent_data := none, needs_recomputation := false, computing := false,
         dependents := [], disable_cache := false })]

theorem c9_witness :
    computingOf heapC9w 0 = false ∧
      computingOf (compute 5 heapC9w 0 false false false none).heap 0 = false ∧
      (compute 5 heapC9w 0 false false false none).res =
        Out.err (wrapErr "f" (PyErr.base "ValueError" "Test error")) :=
  ⟨by decide, c9_computing_reset 5 heapC9w 0 false false false none 0 (by decide), by decide⟩

/-! ### Claim C6 -/

def doubleImpl : List Val → List (String × Val) → Except PyErr Val :=
  fun vs _ =>
    match vs with
    | [Val.int x] => .ok (.int (x * 2))
    | _ => .error (.base "TypeError" "bad arguments")

def heapC6 : Heap :=
  [(0, { func_name := "f", impl := doubleImpl, args := [Arg.val (Val.int 5)], kwargs := [],
         latent_data := some (Val.int 9), needs_recomputation := false, computing := false,
         dependents := [], disable_cache := false })]

/-- C6 counterexample: `dont_cache` does not force a fresh computation.  On a
node with a valid cache, `compute(dont_cache=True)` returns the cached value
(here the stale-by-construction 9, where executing the callable would give
10) through the cache-eligibility early return, invoking nothing — the
eligibility test in the source does not consult `dont_cache`.  This refutes
the claim that with `dont_cache=True` the result is always computed fresh. -/
theorem c6_counterexample :
    (compute 5 heapC6 0 false false true none).res = Out.ok (Val.int 9) ∧
      (compute 5 heapC6 0 false false true none).viaCache = true ∧
      (compute 5 heapC6 0 false false true none).log = [] := by
  refine ⟨?_, ?_, ?_⟩ <;> decide

/-- C6 amended: `dont_cache=True` suppresses storing, not reading: a valid
cached value may still be served in place of executing the computation; and
whenever the computation does run, the freshly computed result is not stored
— during the whole call no node's cache slot is ever populated (each slot is
left unchanged or cleared by the staleness correction), since the flag is
also handed down to every dependency. -/
theorem c6_dont_cache_never_stores (fuel : Nat) (h : Heap) (n : NodeId)
    (force rd : Bool) (md : Option Int) (q : NodeId) :
    cacheOf (compute fuel h n force rd true md).heap q = cacheOf h q ∨
      cacheOf (compute fuel h n force rd true md).heap q = none :=
  (dontCachePres fuel).1 h n force rd md q

/-! ### Claim C3 -/

theorem stale_nil_seeds (h : Heap) (G : DiGraph)
    (hst : get_updated_nodes (correct_computed_status h G) G = []) :
    G.nodes.filter (fun i => flagOf h i) = [] := by
  unfold get_updated_nodes at hst
  rw [List.filter_eq_nil_iff] at hst ⊢
  intro a ha hflag
  exact hst a ha (correction_flag_mono h G a hflag)

/-- C3: with the reentrancy guard and the cycle check passed, a `compute`
call returns the cached value immediately (the `viaCache` early return) if
and only if all four conditions hold: `force_recompute` is false,
`recompute_dependencies` is false, the stale set reported for the graph
rooted at the node is empty, and the node's own cache is non-empty; and
when it does, the call performs no recursion into dependencies (empty
invocation log), has no side effect on any node (the heap is returned
exactly as it was), and yields the cached value. -/
theorem c3_cache_hit_iff (fuel : Nat) (h : Heap) (n : NodeId) (nd : Latent)
    (force rd dc : Bool) (md : Option Int)
    (hl : Heap.lookup h n = some nd) (hcomp : nd.computing = false)
    (hcy : has_cycle (get_dependency_graph h n) = false) :
    ((compute (fuel+1) h n force rd dc md).viaCache = true ↔
      (force = false ∧ rd = false ∧
        get_updated_nodes (correct_computed_status h (get_dependency_graph h n))
          (get_dependency_graph h n) = [] ∧ (cacheOf h n).isSome = true)) ∧
    ((compute (fuel+1) h n force rd dc md).viaCache = true →
      (compute (fuel+1) h n force rd dc md).heap = h ∧
      (compute (fuel+1) h n force rd dc md).log = [] ∧
      (compute (fuel+1) h n force rd dc md).res = Out.ok ((cacheOf h n).getD (Val.int 0))) := by
  by_cases hcond : force = false ∧ rd = false ∧
      get_updated_nodes (correct_computed_status h (get_dependency_graph h n))
        (get_dependency_graph h n) = [] ∧ (cacheOf h n).isSome = true
  · obtain ⟨hf, hr, hst, hsome⟩ := hcond
    have hcorr := correction_clean h _ (stale_nil_seeds h _ hst)
    obtain ⟨v, hv⟩ := Option.isSome_iff_exists.1 hsome
    have hres : compute (fuel+1) h n force rd dc md = ⟨Out.ok v, h, [], true⟩ := by
      simp only [compute]
      rw [hl]
      simp only [hcomp, Bool.false_eq_true, if_false, hcy]
      rw [if_pos ⟨hf, hr, hst⟩]
      rw [hcorr, hv]
    rw [hres]
    refine ⟨⟨fun _ => ⟨hf, hr, hst, hsome⟩, fun _ => rfl⟩, fun _ => ⟨rfl, rfl, ?_⟩⟩
    rw [hv]
    rfl
  · have hvc : (compute (fuel+1) h n force rd dc md).viaCache = false := by
      simp only [compute]
      rw [hl]
      simp only [hcomp, Bool.false_eq_true, if_false, hcy]
      split
      · next v heq =>
        exfalso
        by_cases hpre : force = false ∧ rd = false ∧
            get_updated_nodes (correct_computed_status h (get_dependency_graph h n))
              (get_dependency_graph h n) = []
        · rw [if_pos hpre] at heq
          rw [correction_clean h _ (stale_nil_seeds h _ hpre.2.2)] at heq
          exact hcond ⟨hpre.1, hpre.2.1, hpre.2.2, by rw [heq]; rfl⟩
        · rw [if_neg hpre] at heq
          exact Option.noConfusion heq
      · exact missPath_viaCache _ _ _ _ _ _ _
    constructor
    · rw [hvc]
      constructor
      · intro hcontr
        exact absurd hcontr (by simp)
      · intro hcontr
        exact absurd hcontr hcond
    · intro hvtrue
      rw [hvc] at hvtrue
      exact absurd hvtrue (by simp)

def heapC3 : Heap :=
  [(0, { func_name := "f", impl := doubleImpl, args := [Arg.val (Val.int 5)], kwargs := [],
         latent_data := some (Val.int 10), needs_recomputation := false, computing := false,
         dependents := [], disable_cache := false })]

theorem c3_witness :
    ((compute 3 heapC3 0 false false false none).viaCache = true ↔
      (false = false ∧ false = false ∧
        get_updated_nodes (correct_computed_status heapC3 (get_dependency_graph heapC3 0))
          (get_dependency_graph heapC3 0) = [] ∧ (cacheOf heapC3 0).isSome = true)) ∧
      (compute 3 heapC3 0 false false false none).viaCache = true ∧
      (compute 3 heapC3 0 false false false none).heap = heapC3 ∧
      (compute 3 heapC3 0 false false false none).log = [] ∧
      (compute 3 heapC3 0 false false false none).res = Out.ok (Val.int 10) := by
  have main := c3_cache_hit_iff 2 heapC3 0
    { func_name := "f", impl := doubleImpl, args := [Arg.val (Val.int 5)], kwargs := [],
      latent_data := some (Val.int 10), needs_recomputation := false, computing := false,
      dependents := [], disable_cache := false }
    false false false none rfl rfl (by decide)
  have hvc : (compute 3 heapC3 0 false false false none).viaCache = true :=
    main.1.mpr ⟨rfl, rfl, by decide, by decide⟩
  obtain ⟨hh, hlg, hres⟩ := main.2 hvc
  exact ⟨main.1, hvc, hh, hlg, hres⟩

/-! ### Claim C4 -/

theorem missPath_ok_mem (fuel : Nat) (h : Heap) (n : NodeId) (nd : Latent)
    (rd dc : Bool) (md : Option Int) (v : Val)
    (hres : (missPath fuel h n nd rd dc md).res = Out.ok v) :
    n ∈ (missPath fuel h n nd rd dc md).log := by
  cases fuel with
  | zero => exact absurd hres (by simp [missPath])
  | succ fuel =>
    simp only [missPath] at hres ⊢
    split at hres
    · exact absurd hres (by simp)
    · exact absurd hres (by simp)
    · split at hres
      · exact absurd hres (by simp)
      · exact absurd hres (by simp)
      · split at hres
        · exact absurd hres (by simp)
        · simp

theorem compute_eq_none (fuel : Nat) (h : Heap) (n : NodeId) (force rd dc : Bool)
    (md : Option Int) (hlk : Heap.lookup h n = none) :
    compute (fuel+1) h n force rd dc md = ⟨Out.err missingErr, h, [], false⟩ := by
  simp only [compute]
  rw [hlk]

theorem compute_eq_busy (fuel : Nat) (h : Heap) (n : NodeId) (nd : Latent)
    (force rd dc : Bool) (md : Option Int)
    (hl : Heap.lookup h n = some nd) (hc : nd.computing = true) :
    compute (fuel+1) h n force rd dc md =
      ⟨Out.err (recursionErr nd.func_name), h, [], false⟩ := by
  simp only [compute]
  rw [hl]
  simp [hc]

theorem compute_eq_cycle (fuel : Nat) (h : Heap) (n : NodeId) (nd : Latent)
    (force rd dc : Bool) (md : Option Int)
    (hl : Heap.lookup h n = some nd) (hc : nd.computing = false)
    (hcy : has_cycle (get_dependency_graph h n) = true) :
    compute (fuel+1) h n force rd dc md = ⟨Out.err cycleErr, h, [], false⟩ := by
  simp only [compute]
  rw [hl]
  simp [hc, hcy]

/-- The main branch of `compute`: guards passed, the call reduces to the
cache-eligibility decision over the corrected heap, falling back to the
recompute path. -/
theorem compute_eq_main (fuel : Nat) (h : Heap) (n : NodeId) (nd : Latent)
    (force rd dc : Bool) (md : Option Int)
    (hl : Heap.lookup h n = some nd) (hc : nd.computing = false)
    (hcy : has_cycle (get_dependency_graph h n) = false) :
    compute (fuel+1) h n force rd dc md =
      (match (if force = false ∧ rd = false ∧
          get_updated_nodes (correct_computed_status h (get_dependency_graph h n))
            (get_dependency_graph h n) = [] then
          cacheOf (correct_computed_status h (get_dependency_graph h n)) n
        else none) with
      | some v =>
        ⟨Out.ok v, correct_computed_status h (get_dependency_graph h n), [], true⟩
      | none =>
        missPath fuel (correct_computed_status h (get_dependency_graph h n)) n nd rd dc md) := by
  simp only [compute]
  rw [hl]
  simp only [hc, Bool.false_eq_true, if_false, hcy]

theorem forced_ok_mem (fuel : Nat) (h : Heap) (j : NodeId) (rd dc : Bool)
    (md : Option Int) (v : Val)
    (hres : (compute fuel h j true rd dc md).res = Out.ok v) :
    j ∈ (compute fuel h j true rd dc md).log := by
  cases fuel with
  | zero => exact absurd hres (by simp [compute])
  | succ fuel =>
    cases hlk : Heap.lookup h j with
    | none =>
      rw [compute_eq_none fuel h j true rd dc md hlk] at hres
      exact absurd hres (by simp)
    | some nd =>
      cases hcb : nd.computing with
      | true =>
        rw [compute_eq_busy fuel h j nd true rd dc md hlk hcb] at hres
        exact absurd hres (by simp)
      | false =>
        cases hcy : has_cycle (get_dependency_graph h j) with
        | true =>
          rw [compute_eq_cycle fuel h j nd true rd dc md hlk hcb hcy] at hres
          exact absurd hres (by simp)
        | false =>
          rw [compute_eq_main fuel h j nd true rd dc md hlk hcb hcy] at hres ⊢
          rw [if_neg (by simp)] at hres ⊢
          exact missPath_ok_mem _ _ _ _ _ _ _ v hres

theorem resolveArgs_forced_mem : ∀ (fuel : Nat) (h : Heap) (as : List Arg) (dc : Bool)
    (j : NodeId) (vs : List Val),
    (resolveArgs fuel h as true dc none).1 = Out.ok vs → Arg.node j ∈ as →
    j ∈ (resolveArgs fuel h as true dc none).2.2 := by
  intro fuel
  induction fuel with
  | zero =>
    intro h as dc j vs hres _
    exact absurd hres (by simp [resolveArgs])
  | succ fuel ih =>
    intro h as dc j vs hres hj
    match as with
    | [] => exact absurd hj (by simp)
    | a :: rest =>
      simp only [resolveArgs] at hres ⊢
      split at hres
      · exact absurd hres (by simp)
      · exact absurd hres (by simp)
      · next v0 heq0 =>
        split at hres
        · next vs0 heq1 =>
          rcases List.mem_cons.1 hj with hja | hjr
          · subst hja
            apply List.mem_append_left
            cases fuel with
            | zero => exact absurd heq0 (by simp [compute_nested])
            | succ fuel2 =>
              simp only [compute_nested] at heq0 ⊢
              rw [if_neg (by simp [depthExceeded])] at heq0 ⊢
              exact forced_ok_mem _ _ _ _ _ _ _ heq0
          · exact List.mem_append_right _ (ih _ rest dc j vs0 heq1 hjr)
        · exact absurd hres (by simp)
        · exact absurd hres (by simp)

theorem resolveKwargs_forced_mem : ∀ (fuel : Nat) (h : Heap) (ps : List (String × Arg))
    (dc : Bool) (j : NodeId) (vs : List (String × Val)),
    (resolveKwargs fuel h ps true dc none).1 = Out.ok vs →
    (∃ k, (k, Arg.node j) ∈ ps) →
    j ∈ (resolveKwargs fuel h ps true dc none).2.2 := by
  intro fuel
  induction fuel with
  | zero =>
    intro h ps dc j vs hres _
    exact absurd hres (by simp [resolveKwargs])
  | succ fuel ih =>
    intro h ps dc j vs hres hj
    match ps with
    | [] =>
      obtain ⟨k, hk⟩ := hj
      exact absurd hk (by simp)
    | q :: rest =>
      simp only [resolveKwargs] at hres ⊢
      split at hres
      · exact absurd hres (by simp)
      · exact absurd hres (by simp)
      · next v0 heq0 =>
        split at hres
        · next vs0 heq1 =>
          obtain ⟨k, hk⟩ := hj
          rcases List.mem_cons.1 hk with hja | hjr
          · have hq2 : q.2 = Arg.node j := by
              rw [← hja]
            apply List.mem_append_left
            rw [hq2] at heq0 ⊢
            cases fuel with
            | zero => exact absurd heq0 (by simp [compute_nested])
            | succ fuel2 =>
              simp only [compute_nested] at heq0 ⊢
              rw [if_neg (by simp [depthExceeded])] at heq0 ⊢
              exact forced_ok_mem _ _ _ _ _ _ _ heq0
          · exact List.mem_append_right _ (ih _ rest dc j vs0 heq1 ⟨k, hjr⟩)
        · exact absurd hres (by simp)
        · exact absurd hres (by simp)

def succImpl : List Val → List (String × Val) → Except PyErr Val :=
  fun vs _ =>
    match vs with
    | [Val.int x] => .ok (.int (x + 1))
    | _ => .error (.base "TypeError" "bad arguments")

def oneImpl : List Val → List (String × Val) → Except PyErr Val :=
  fun _ _ => .ok (.int 1)

/-- A three-node chain for C4: node 2 depends on node 1, which depends on
node 0; every node is cached and clean. -/
def heapC4 : Heap :=
  [(0, { func_name := "f0", impl := oneImpl, args := [], kwargs := [],
         latent_data := some (Val.int 1), needs_recomputation := false, computing := false,
         dependents := [1], disable_cache := false }),
   (1, { func_name := "f1", impl := succImpl, args := [Arg.node 0], kwargs := [],
         latent_data := some (Val.int 2), needs_recomputation := false, computing := false,
         dependents := [2], disable_cache := false }),
   (2, { func_name := "f2", impl := succImpl, args := [Arg.node 1], kwargs := [],
         latent_data := some (Val.int 3), needs_recomputation := false, computing := false,
         dependents := [], disable_cache := false })]

/-- C4 counterexample: computing the head of a cached three-node chain with
`recompute_dependencies=True` invokes only the head (node 2) and its direct
dependency (node 1) — the invocation log is `[1, 2]` — while the depth-two
dependency node 0 is never invoked: its cached value is served, because
`compute` translates `recompute_dependencies` into `force_recompute` for its
direct dependencies only, and `compute_nested` leaves
`recompute_dependencies` at its default False for the nested call.  This
refutes the claim that every dependency at any depth is forced to
recompute. -/
theorem c4_counterexample :
    (compute 10 heapC4 2 false true false none).res = Out.ok (Val.int 3) ∧
      (compute 10 heapC4 2 false true false none).log = [1, 2] := by
  constructor <;> decide

/-- C4 amended: `compute(recompute_dependencies=True)` forces every direct
dependency of the node to recompute — on a successful call, every node
referenced directly by a positional or keyword argument is invoked —
but dependencies at depth two or more are not forced and may be served from
their caches. -/
theorem c4_direct_deps_forced (fuel : Nat) (h : Heap) (n : NodeId) (nd : Latent)
    (j : NodeId) (v : Val)
    (hl : Heap.lookup h n = some nd)
    (hj : Arg.node j ∈ nd.args ∨ ∃ k, (k, Arg.node j) ∈ nd.kwargs)
    (hres : (compute fuel h n false true false none).res = Out.ok v) :
    j ∈ (compute fuel h n false true false none).log := by
  cases fuel with
  | zero => exact absurd hres (by simp [compute])
  | succ fuel =>
    cases hcb : nd.computing with
    | true =>
      rw [compute_eq_busy fuel h n nd false true false none hl hcb] at hres
      exact absurd hres (by simp)
    | false =>
    cases hcy : has_cycle (get_dependency_graph h n) with
    | true =>
      rw [compute_eq_cycle fuel h n nd false true false none hl hcb hcy] at hres
      exact absurd hres (by simp)
    | false =>
      rw [compute_eq_main fuel h n nd false true false none hl hcb hcy] at hres ⊢
      rw [if_neg (by simp)] at hres ⊢
      cases fuel with
        | zero => exact absurd hres (by simp [missPath])
        | succ fuel2 =>
          simp only [missPath] at hres ⊢
          split at hres
          · exact absurd hres (by simp)
          · exact absurd hres (by simp)
          · next vs0 heq0 =>
            split at hres
            · exact absurd hres (by simp)
            · exact absurd hres (by simp)
            · next kvs0 heq1 =>
              split at hres
              · exact absurd hres (by simp)
              · rcases hj with hja | hjk
                · apply List.mem_append_left
                  apply List.mem_append_left
                  exact resolveArgs_forced_mem _ _ _ _ _ _ heq0 hja
                · apply List.mem_append_left
                  apply List.mem_append_right
                  exact resolveKwargs_forced_mem _ _ _ _ _ _ heq1 hjk

theorem c4_witness :
    (compute 10 heapC4 2 false true false none).res = Out.ok (Val.int 3) ∧
      1 ∈ (compute 10 heapC4 2 false true false none).log :=
  ⟨by decide,
    c4_direct_deps_forced 10 heapC4 2
      { func_name := "f2", impl := succImpl, args := [Arg.node 1], kwargs := [],
        latent_data := some (Val.int 3), needs_recomputation := false, computing := false,
        dependents := [], disable_cache := false }
      1 (Val.int 3) rfl (Or.inl (by decide)) (by decide)⟩

/-! ### Claim C8 -/

theorem computingOf_setComp_self (h : Heap) (n : NodeId)
    (hl : (Heap.lookup h n).isSome = true) :
    computingOf (Heap.modifyAt h n (setComp true)) n = true := by
  rw [computingOf_modifyAt]
  simp only [if_pos rfl]
  obtain ⟨nd, hnd⟩ := Option.isSome_iff_exists.1 hl
  rw [hnd]
  rfl

theorem lookup_correction_isSome (h : Heap) (G : DiGraph) (n : NodeId)
    (hl : (Heap.lookup h n).isSome = true) :
    (Heap.lookup (correct_computed_status h G) n).isSome = true := by
  obtain ⟨nd, hnd⟩ := Option.isSome_iff_exists.1 hl
  rcases correction_lookup h G n with hc | hc <;> rw [hc, hnd] <;> rfl

/-- On the recompute path, every exception is re-raised wrapped with the
frame's callable name, and the frame never stores into its own cache slot. -/
theorem missPath_err (fuel : Nat) (h : Heap) (n : NodeId) (nd : Latent)
    (rd dc : Bool) (md : Option Int) (er : PyErr)
    (hl : (Heap.lookup h n).isSome = true)
    (hres : (missPath fuel h n nd rd dc md).res = Out.err er) :
    (∃ e0, er = wrapErr nd.func_name e0) ∧
    (cacheOf (missPath fuel h n nd rd dc md).heap n = cacheOf h n ∨
      cacheOf (missPath fuel h n nd rd dc md).heap n = none) := by
  cases fuel with
  | zero => exact absurd hres (by simp [missPath])
  | succ fuel =>
    have hbusy : computingOf (Heap.modifyAt h n (setComp true)) n = true :=
      computingOf_setComp_self h n hl
    have hstep : cacheOf (Heap.modifyAt h n (setComp true)) n = cacheOf h n :=
      cacheOf_setComp h n true n
    obtain ⟨a1, a2, _⟩ := (busyPres fuel).2.2.1 (Heap.modifyAt h n (setComp true))
      nd.args rd dc md n hbusy
    have hA : cacheOf (resolveArgs fuel (Heap.modifyAt h n (setComp true))
        nd.args rd dc md).2.1 n = cacheOf h n ∨
        cacheOf (resolveArgs fuel (Heap.modifyAt h n (setComp true))
        nd.args rd dc md).2.1 n = none :=
      cacheKeep_trans (Or.inl hstep) a2
    simp only [missPath] at hres ⊢
    split at hres
    · next e heq =>
      refine ⟨⟨e, by simpa using hres.symm⟩, ?_⟩
      rw [cacheOf_reset]
      exact hA
    · exact absurd hres (by simp)
    · next vs heq =>
      obtain ⟨k1, k2, _⟩ := (busyPres fuel).2.2.2.1 _ nd.kwargs rd dc md n a1
      have hK := cacheKeep_trans hA k2
      split at hres
      · next e heq2 =>
        refine ⟨⟨e, by simpa using hres.symm⟩, ?_⟩
        rw [cacheOf_reset]
        exact hK
      · exact absurd hres (by simp)
      · split at hres
        · next e heq3 =>
          refine ⟨⟨e, by simpa using hres.symm⟩, ?_⟩
          rw [cacheOf_reset]
          exact hK
        · exact absurd hres (by simp)

/-- C8 amended: with the guards passed, whenever a `compute` call fails
because the callable (or the resolution of an argument) raised, the error
propagated to the caller is of the same category as the raised exception,
its message names this node's callable and contains the raised exception's
message, and the raised exception is retained as the cause; and the failing
call stores no result into the failing node's own cache slot (it is left
unchanged, or cleared by the staleness correction).  Dependencies that
completed successfully before the failure keep the results they cached. -/
theorem c8_error_wrapped (fuel : Nat) (h : Heap) (n : NodeId) (nd : Latent)
    (force rd dc : Bool) (md : Option Int) (er : PyErr)
    (hl : Heap.lookup h n = some nd) (hc : nd.computing = false)
    (hcy : has_cycle (get_dependency_graph h n) = false)
    (hres : (compute (fuel+1) h n force rd dc md).res = Out.err er) :
    (∃ e0, er = wrapErr nd.func_name e0 ∧ er.etype = e0.etype ∧
      er.msg = "Error in delayed computation of " ++ nd.func_name ++ ": " ++ e0.msg ∧
      er.cause = some e0) ∧
    (cacheOf (compute (fuel+1) h n force rd dc md).heap n = cacheOf h n ∨
      cacheOf (compute (fuel+1) h n force rd dc md).heap n = none) := by
  rw [compute_eq_main fuel h n nd force rd dc md hl hc hcy] at hres ⊢
  split at hres
  · exact absurd hres (by simp)
  · have hl1 : (Heap.lookup (correct_computed_status h (get_dependency_graph h n)) n).isSome
        = true :=
      lookup_correction_isSome h _ n (by rw [hl]; rfl)
    obtain ⟨⟨e0, he0⟩, hcache⟩ := missPath_err fuel _ n nd rd dc md er hl1 hres
    refine ⟨⟨e0, he0, ?_, ?_, ?_⟩, ?_⟩
    · rw [he0]
      rfl
    · rw [he0]
      rfl
    · rw [he0]
      rfl
    · exact cacheKeep_trans (correction_cacheOf h _ n) hcache

def heapC8 : Heap :=
  [(0, { func_name := "g", impl := doubleImpl, args := [Arg.val (Val.int 1)], kwargs := [],
         latent_data := none, needs_recomputation := false, computing := false,
         dependents := [2], disable_cache := false }),
   (1, { func_name := "h", impl := raiseImpl, args := [], kwargs := [],
         latent_data := none, needs_recomputation := false, computing := false,
         dependents := [2], disable_cache := false }),
   (2, { func_name := "f", impl := succImpl, args := [Arg.node 0, Arg.node 1], kwargs := [],
         latent_data := none, needs_recomputation := false, computing := false,
         dependents := [], disable_cache := false })]

/-- C8 counterexample: the claim's last clause — "the failing call stores no
result in any cache" — is false.  Computing node 2, whose first dependency
(node 0) succeeds and whose second dependency (node 1) raises, fails with
the doubly wrapped ValueError, yet node 0's cache slot goes from empty to
holding 2: the successful dependency cached its result during the failing
top-level call. -/
theorem c8_counterexample :
    (compute 10 heapC8 2 false false false none).res =
        Out.err (wrapErr "f" (wrapErr "h" (PyErr.base "ValueError" "Test error"))) ∧
      cacheOf heapC8 0 = none ∧
      cacheOf (compute 10 heapC8 2 false false false none).heap 0 = some (Val.int 2) := by
  refine ⟨?_, ?_, ?_⟩ <;> decide

def heapC8w : Heap :=
  [(0, { func_name := "f", impl := raiseImpl, args := [], kwargs := [],
         latent_data := none, needs_recomputation := false, computing := false,
         dependents := [], disable_cache := false })]

theorem c8_witness :
    (∃ e0, wrapErr "f" (PyErr.base "ValueError" "Test error") = wrapErr "f" e0 ∧
      (wrapErr "f" (PyErr.base "ValueError" "Test error")).etype = e0.etype ∧
      (wrapErr "f" (PyErr.base "ValueError" "Test error")).msg =
        "Error in delayed computation of " ++ "f" ++ ": " ++ e0.msg ∧
      (wrapErr "f" (PyErr.base "ValueError" "Test error")).cause = some e0) ∧
    (cacheOf (compute 3 heapC8w 0 false false false none).heap 0 = cacheOf heapC8w 0 ∨
      cacheOf (compute 3 heapC8w 0 false false false none).heap 0 = none) :=
  c8_error_wrapped 2 heapC8w 0
    { func_name := "f", impl := raiseImpl, args := [], kwargs := [],
      latent_data := none, needs_recomputation := false, computing := false,
      dependents := [], disable_cache := false }
    false false false none (wrapErr "f" (PyErr.base "ValueError" "Test error"))
    rfl rfl (by decide) (by decide)

/-! ### Claim C2 -/

/-- Node 0 computes `f(x) = 2x`; node 1 computes `g(y) = y + 1` over node 0. -/
def heapC2 : Heap :=
  [(0, { func_name := "f", impl := doubleImpl, args := [Arg.val (Val.int 5)], kwargs := [],
         latent_data := none, needs_recomputation := false, computing := false,
         dependents := [1], disable_cache := false }),
   (1, { func_name := "g", impl := succImpl, args := [Arg.node 0], kwargs := [],
         latent_data := none, needs_recomputation := false, computing := false,
         dependents := [], disable_cache := false })]

/-- First mutation: `update_args(6)` on node 0, starting from the pristine
shared default visited set (empty, as Python creates it at definition
time). -/
def stC2a : PState := update_args 10 ⟨heapC2, []⟩ 0 [Arg.val (Val.int 6)]

/-- Node 1 is then recomputed (and re-cached). -/
def rC2 : CResult := compute 10 stC2a.heap 1 false false false none

/-- Second mutation: `update_args(7)` on node 0 again — the shared default
visited set still contains node 1 from the first mutation. -/
def stC2b : PState := update_args 10 ⟨rC2.heap, stC2a.default_visited⟩ 0 [Arg.val (Val.int 7)]

/-- C2: evaluation of the code at the failing input.  The first
`update_args` call does propagate (node 1 is marked stale, its cache
cleared, and the shared default visited set now holds node 1); node 1 then
recomputes to 13 and re-caches it; but the second `update_args` call on node
0, which per the claim (and the update methods' own documentation) must
again clear node 1's cache and mark it, silently skips node 1 — it is still
in the shared mutable default `visited` set of `_update_dependents` — so
after the second mutation node 0's cache is cleared while its dependent node
1 still holds the now-invalid cached 13.  The propagation does not run with
a fresh visited collection per top-level call. -/
theorem c2_shared_visited_eval :
    stC2a.default_visited = [1] ∧
      flagOf stC2a.heap 1 = true ∧ cacheOf stC2a.heap 1 = none ∧
      rC2.res = Out.ok (Val.int 13) ∧ cacheOf rC2.heap 1 = some (Val.int 13) ∧
      cacheOf stC2b.heap 0 = none ∧
      cacheOf stC2b.heap 1 = some (Val.int 13) := by
  refine ⟨?_, ?_, ?_, ?_, ?_, ?_, ?_⟩ <;> decide

/-! ### Claim C5 -/

def heapC5 : Heap :=
  [(0, { func_name := "f", impl := doubleImpl, args := [Arg.val (Val.int 5)], kwargs := [],
         latent_data := none, needs_recomputation := false, computing := false,
         dependents := [], disable_cache := false })]

def stC5 : PState := update_args 5 ⟨heapC5, []⟩ 0 [Arg.val (Val.int 6)]

def rC5 : CResult := compute 5 stC5.heap 0 false false false none

/-- C5: evaluation of the code at the failing input.  After `update_args(6)`
marks node 0 stale, a `compute` call succeeds, returns 12 and stores 12 in
the node's cache — yet `needs_recomputation` is still true afterwards:
nothing in `Latent.compute` (nor in the cache store it performs) ever clears
the flag, contradicting the claim that a successful recompute clears it.
Every later `compute` on this node therefore finds a non-empty stale set and
re-executes the callable despite the fresh cache. -/
theorem c5_flag_not_cleared_eval :
    flagOf stC5.heap 0 = true ∧
      rC5.res = Out.ok (Val.int 12) ∧
      cacheOf rC5.heap 0 = some (Val.int 12) ∧
      flagOf rC5.heap 0 = true ∧
      (compute 5 rC5.heap 0 false false false none).log = [0] := by
  refine ⟨?_, ?_, ?_, ?_, ?_⟩ <;> decide

/-! ### Claim C10 -/

theorem isSome_of_computing (h : Heap) (q : NodeId) (hc : computingOf h q = true) :
    (Heap.lookup h q).isSome = true := by
  unfold computingOf at hc
  cases hl : Heap.lookup h q
  · rw [hl] at hc
    exact absurd hc (by simp)
  · rfl

theorem cacheOf_setCacheV_self (h : Heap) (i : NodeId) (v : Val)
    (hl : (Heap.lookup h i).isSome = true) :
    cacheOf (Heap.modifyAt h i (setCacheV v)) i = some v := by
  rw [cacheOf_modifyAt]
  simp only [if_pos rfl]
  obtain ⟨nd, hnd⟩ := Option.isSome_iff_exists.1 hl
  rw [hnd]
  rfl

theorem lookup_some_of_shape {h h' : Heap} (e : shape h' = shape h) {n : NodeId} {nd : Latent}
    (hl : Heap.lookup h n = some nd) :
    ∃ nd2, Heap.lookup h' n = some nd2 ∧ shapeF nd2 = shapeF nd := by
  have hmap := lookup_map_shapeF e n
  rw [hl] at hmap
  cases hl2 : Heap.lookup h' n
  · rw [hl2] at hmap
    exact absurd hmap (by simp)
  · next nd2 =>
    rw [hl2] at hmap
    exact ⟨nd2, rfl, by simpa using hmap⟩

theorem graph_of_skeleton {h h' : Heap} (e : skeleton h' = skeleton h) (n : NodeId) :
    get_dependency_graph h' n = get_dependency_graph h n := by
  unfold get_dependency_graph
  rw [e]

/-- Success properties of the recompute path: the frame's callable is
invoked exactly once (nested frames cannot re-enter it past the busy flag),
the computing flag is reset, and the cache slot ends up holding the result
when caching is enabled and not suppressed, or is never populated when the
node's caching is disabled. -/
theorem missPath_ok_props (fuel : Nat) (h : Heap) (n : NodeId) (nd : Latent)
    (rd dc : Bool) (md : Option Int) (v : Val)
    (hl : (Heap.lookup h n).isSome = true)
    (hres : (missPath fuel h n nd rd dc md).res = Out.ok v) :
    (missPath fuel h n nd rd dc md).log.count n = 1 ∧
    computingOf (missPath fuel h n nd rd dc md).heap n = false ∧
    ((nd.disable_cache = false ∧ dc = false) →
      cacheOf (missPath fuel h n nd rd dc md).heap n = some v) := by
  cases fuel with
  | zero => exact absurd hres (by simp [missPath])
  | succ fuel =>
    have hbusy : computingOf (Heap.modifyAt h n (setComp true)) n = true :=
      computingOf_setComp_self h n hl
    obtain ⟨a1, a2, a3⟩ := (busyPres fuel).2.2.1 (Heap.modifyAt h n (setComp true))
      nd.args rd dc md n hbusy
    simp only [missPath] at hres ⊢
    split at hres
    · exact absurd hres (by simp)
    · exact absurd hres (by simp)
    · next vs heq =>
      obtain ⟨k1, k2, k3⟩ := (busyPres fuel).2.2.2.1 _ nd.kwargs rd dc md n a1
      have hsome2 := isSome_of_computing _ n k1
      split at hres
      · exact absurd hres (by simp)
      · exact absurd hres (by simp)
      · next kvs heq2 =>
        split at hres
        · exact absurd hres (by simp)
        · next result heq3 =>
          have hrv : result = v := by simpa using hres
          subst hrv
          refine ⟨?_, computingOf_reset_self _ _, ?_⟩
          · rw [List.count_append, List.count_append]
            rw [List.count_eq_zero.2 a3, List.count_eq_zero.2 k3]
            simp
          · intro hcc
            rw [if_pos hcc, cacheOf_reset]
            exact cacheOf_setCacheV_self _ n result hsome2

/-- With caching disabled for the node, the recompute path never populates
its cache slot, whatever the outcome. -/
theorem missPath_cache_disabled (fuel : Nat) (h : Heap) (n : NodeId) (nd : Latent)
    (rd dc : Bool) (md : Option Int)
    (hl : (Heap.lookup h n).isSome = true)
    (hdis : nd.disable_cache = true) :
    cacheOf (missPath fuel h n nd rd dc md).heap n = cacheOf h n ∨
      cacheOf (missPath fuel h n nd rd dc md).heap n = none := by
  cases fuel with
  | zero => exact Or.inl rfl
  | succ fuel =>
    have hbusy : computingOf (Heap.modifyAt h n (setComp true)) n = true :=
      computingOf_setComp_self h n hl
    have hstep : cacheOf (Heap.modifyAt h n (setComp true)) n = cacheOf h n :=
      cacheOf_setComp h n true n
    obtain ⟨a1, a2, _⟩ := (busyPres fuel).2.2.1 (Heap.modifyAt h n (setComp true))
      nd.args rd dc md n hbusy
    have hA := cacheKeep_trans (Or.inl hstep) a2
    simp only [missPath]
    split
    · rw [cacheOf_reset]
      exact hA
    · rw [cacheOf_reset]
      exact hA
    · obtain ⟨k1, k2, _⟩ := (busyPres fuel).2.2.2.1 _ nd.kwargs rd dc md n a1
      have hK := cacheKeep_trans hA k2
      split
      · rw [cacheOf_reset]
        exact hK
      · rw [cacheOf_reset]
        exact hK
      · split
        · rw [cacheOf_reset]
          exact hK
        · rw [cacheOf_reset]
          rw [if_neg (by
            intro hcc
            rw [hdis] at hcc
            exact absurd hcc.1 (by simp))]
          exact hK

theorem allClean_of_entries (h : Heap)
    (hall : ∀ p ∈ h, (p.2 : Latent).needs_recomputation = false) : AllClean h := by
  intro q
  unfold flagOf Heap.lookup
  cases hf : h.find? (fun p => p.1 == q) with
  | none => rfl
  | some a =>
    have ha : a ∈ h := List.mem_of_find?_eq_some hf
    exact hall a ha

/-- C10 amended, in two parts.  Part one: for a node with caching enabled,
starting uncached and not busy, in a heap with no node marked
`needs_recomputation` (in particular, no definition in its dependency
closure has been mutated since construction), a successful `compute` with
default flags invokes the node's callable exactly once, and a second
`compute` immediately afterwards is a pure cache hit: it returns the same
value via the cache, invoking nothing.  Part two: for a node constructed
with `disable_cache`, starting uncached, no `compute` call ever populates
its cache regardless of the per-call flags, and every successful call
invokes its callable. -/
theorem c10_cache_hit_once :
    (∀ (fuel : Nat) (h : Heap) (n : NodeId) (nd : Latent) (v : Val),
      Heap.lookup h n = some nd → nd.disable_cache = false → nd.computing = false →
      cacheOf h n = none → AllClean h →
      (compute (fuel+1) h n false false false none).res = Out.ok v →
      (compute (fuel+1) h n false false false none).log.count n = 1 ∧
      ∀ fuel2 : Nat,
        (compute (fuel2+1) (compute (fuel+1) h n false false false none).heap n
          false false false none).res = Out.ok v ∧
        (compute (fuel2+1) (compute (fuel+1) h n false false false none).heap n
          false false false none).viaCache = true ∧
        (compute (fuel2+1) (compute (fuel+1) h n false false false none).heap n
          false false false none).log = []) ∧
    (∀ (fuel : Nat) (h : Heap) (m : NodeId) (nd : Latent) (force rd dc : Bool)
        (md : Option Int),
      Heap.lookup h m = some nd → nd.disable_cache = true → cacheOf h m = none →
      cacheOf (compute fuel h m force rd dc md).heap m = none ∧
      (∀ v, (compute fuel h m force rd dc md).res = Out.ok v →
        m ∈ (compute fuel h m force rd dc md).log)) := by
  constructor
  · intro fuel h n nd v hl hdc hcomp hcache hclean hres
    cases hcy : has_cycle (get_dependency_graph h n) with
    | true =>
      rw [compute_eq_cycle fuel h n nd false false false none hl hcomp hcy] at hres
      exact absurd hres (by simp)
    | false =>
      have hseeds := allClean_seeds (get_dependency_graph h n) hclean
      have hcorr := correction_clean h _ hseeds
      have hstale : get_updated_nodes
          (correct_computed_status h (get_dependency_graph h n))
          (get_dependency_graph h n) = [] := by
        rw [hcorr]
        unfold get_updated_nodes
        exact allClean_seeds _ hclean
      have hmain2 : compute (fuel+1) h n false false false none =
          missPath fuel h n nd false false none := by
        rw [compute_eq_main fuel h n nd false false false none hl hcomp hcy,
          if_pos ⟨rfl, rfl, hstale⟩, hcorr, hcache]
      rw [hmain2] at hres ⊢
      have hlsome : (Heap.lookup h n).isSome = true := by
        rw [hl]
        rfl
      obtain ⟨hcount, hcompf, hcachef⟩ :=
        missPath_ok_props fuel h n nd false false none v hlsome hres
      refine ⟨hcount, ?_⟩
      intro fuel2
      have hshape : shape (missPath fuel h n nd false false none).heap = shape h :=
        (shapePres fuel).2.1 h n nd false false none
      obtain ⟨nd2, hl2, hsh2⟩ := lookup_some_of_shape hshape hl
      have hcomp2 : nd2.computing = false := by
        have hcf := hcompf
        unfold computingOf at hcf
        rw [hl2] at hcf
        exact hcf
      have hclean2 : AllClean (missPath fuel h n nd false false none).heap :=
        (cleanPres fuel).2.1 h n nd false false none hclean
      have hsk : skeleton (missPath fuel h n nd false false none).heap = skeleton h :=
        skeleton_eq_of_shape hshape
      have hg2 := graph_of_skeleton hsk n
      have hcy2 : has_cycle
          (get_dependency_graph (missPath fuel h n nd false false none).heap n) = false := by
        rw [hg2]
        exact hcy
      have hcv : cacheOf (missPath fuel h n nd false false none).heap n = some v :=
        hcachef ⟨hdc, rfl⟩
      have hseeds2 := allClean_seeds
        (get_dependency_graph (missPath fuel h n nd false false none).heap n) hclean2
      have hcorr2 := correction_clean _ _ hseeds2
      have hstale2 : get_updated_nodes
          (correct_computed_status (missPath fuel h n nd false false none).heap
            (get_dependency_graph (missPath fuel h n nd false false none).heap n))
          (get_dependency_graph (missPath fuel h n nd false false none).heap n) = [] := by
        rw [hcorr2]
        unfold get_updated_nodes
        exact allClean_seeds _ hclean2
      have hmain3 := compute_eq_main fuel2 (missPath fuel h n nd false false none).heap n nd2
        false false false none hl2 hcomp2 hcy2
      rw [if_pos ⟨rfl, rfl, hstale2⟩, hcorr2, hcv] at hmain3
      rw [hmain3]
      exact ⟨rfl, rfl, rfl⟩
  · intro fuel h m nd force rd dc md hl hdis hcn
    cases fuel with
    | zero => exact ⟨hcn, fun v hv => absurd hv (by simp [compute])⟩
    | succ fuel =>
      cases hcb : nd.computing with
      | true =>
        rw [compute_eq_busy fuel h m nd force rd dc md hl hcb]
        exact ⟨hcn, fun v hv => absurd hv (by simp)⟩
      | false =>
        cases hcy : has_cycle (get_dependency_graph h m) with
        | true =>
          rw [compute_eq_cycle fuel h m nd force rd dc md hl hcb hcy]
          exact ⟨hcn, fun v hv => absurd hv (by simp)⟩
        | false =>
          have hc1none : cacheOf
              (correct_computed_status h (get_dependency_graph h m)) m = none := by
            rcases correction_cacheOf h (get_dependency_graph h m) m with hcc | hcc
            · rw [hcc, hcn]
            · exact hcc
          have hmain2 : compute (fuel+1) h m force rd dc md =
              missPath fuel (correct_computed_status h (get_dependency_graph h m))
                m nd rd dc md := by
            rw [compute_eq_main fuel h m nd force rd dc md hl hcb hcy]
            have hcand : (if force = false ∧ rd = false ∧
                get_updated_nodes (correct_computed_status h (get_dependency_graph h m))
                  (get_dependency_graph h m) = [] then
                cacheOf (correct_computed_status h (get_dependency_graph h m)) m
              else none) = none := by
              split
              · exact hc1none
              · rfl
            rw [hcand]
          rw [hmain2]
          have hl1 : (Heap.lookup (correct_computed_status h (get_dependency_graph h m))
              m).isSome = true :=
            lookup_correction_isSome h _ m (by rw [hl]; rfl)
          constructor
          · rcases missPath_cache_disabled fuel _ m nd rd dc md hl1 hdis with hk | hk
            · rw [hk]
              exact hc1none
            · exact hk
          · intro v hv
            exact missPath_ok_mem fuel _ m nd rd dc md v hv

def heapC10 : Heap :=
  [(0, { func_name := "f", impl := doubleImpl, args := [Arg.val (Val.int 5)], kwargs := [],
         latent_data := none, needs_recomputation := false, computing := false,
         dependents := [], disable_cache := false })]

def stC10 : PState := update_args 5 ⟨heapC10, []⟩ 0 [Arg.val (Val.int 6)]

def rC10a : CResult := compute 5 stC10.heap 0 false false false none

def rC10b : CResult := compute 5 rC10a.heap 0 false false false none

/-- C10 counterexample: a node with caching enabled whose definition is
unchanged between two `compute` calls can nonetheless have its callable
invoked by both calls.  After an earlier `update_args` (before both calls),
the first call recomputes and caches 12, but — the flag never being cleared
— the second call still sees a non-empty stale set, ignores the fresh cache
and invokes the callable again: the two calls together invoke it twice, not
exactly once, and the second call is not a cache hit. -/
theorem c10_counterexample :
    rC10a.res = Out.ok (Val.int 12) ∧ rC10a.log = [0] ∧
      cacheOf rC10a.heap 0 = some (Val.int 12) ∧
      rC10b.res = Out.ok (Val.int 12) ∧ rC10b.log = [0] ∧ rC10b.viaCache = false := by
  refine ⟨?_, ?_, ?_, ?_, ?_, ?_⟩ <;> decide

def heapC10w : Heap :=
  [(0, { func_name := "f", impl := doubleImpl, args := [Arg.val (Val.int 6)], kwargs := [],
         latent_data := none, needs_recomputation := false, computing := false,
         dependents := [], disable_cache := false })]

def heapC10d : Heap :=
  [(0, { func_name := "f", impl := doubleImpl, args := [Arg.val (Val.int 6)], kwargs := [],
         latent_data := none, needs_recomputation := false, computing := false,
         dependents := [], disable_cache := true })]

theorem c10_witness :
    ((compute 6 heapC10w 0 false false false none).log.count 0 = 1 ∧
      (compute 6 (compute 6 heapC10w 0 false false false none).heap 0
        false false false none).res = Out.ok (Val.int 12) ∧
      (compute 6 (compute 6 heapC10w 0 false false false none).heap 0
        false false false none).viaCache = true ∧
      (compute 6 (compute 6 heapC10w 0 false false false none).heap 0
        false false false none).log = []) ∧
    (cacheOf (compute 6 heapC10d 0 false false false none).heap 0 = none ∧
      0 ∈ (compute 6 heapC10d 0 false false false none).log) := by
  have hclean : AllClean heapC10w := by
    apply allClean_of_entries
    intro p hp
    unfold heapC10w at hp
    rw [List.mem_singleton] at hp
    subst hp
    rfl
  have h1 := c10_cache_hit_once.1 5 heapC10w 0
    { func_name := "f", impl := doubleImpl, args := [Arg.val (Val.int 6)], kwargs := [],
      latent_data := none, needs_recomputation := false, computing := false,
      dependents := [], disable_cache := false }
    (Val.int 12) rfl rfl rfl rfl hclean (by decide)
  have h2 := c10_cache_hit_once.2 6 heapC10d 0
    { func_name := "f", impl := doubleImpl, args := [Arg.val (Val.int 6)], kwargs := [],
      latent_data := none, needs_recomputation := false, computing := false,
      dependents := [], disable_cache := true }
    false false false none rfl rfl rfl
  exact ⟨⟨h1.1, (h1.2 5).1, (h1.2 5).2.1, (h1.2 5).2.2⟩,
    ⟨h2.1, h2.2 (Val.int 12) (by decide)⟩⟩
